import Mathlib

/-!
Verification of the sm-crypto-v2 library: shallow embedding of the SM2/SM3
arithmetic and key-agreement code, together with proofs of the specified
properties.  Definitions are translated from the TypeScript source
(`src/sm2/curves/modular.ts`, `src/sm2/kdf.ts`, `src/sm2/utils.ts`,
`src/sm3/utils.ts`, and the key-exchange module); components of the library
that are referenced but whose source is not part of the reviewed tree
(the SM3 compression core, the elliptic-curve point layer, the Z-value
computation and the byte/integer conversion helpers) are modelled from the
specification and are marked as such in their doc comments.
-/

set_option maxRecDepth 100000

namespace SmCrypto

/-! ### Fast modular exponentiation (proof infrastructure)

A fuel-driven square-and-multiply ladder used to state and check the Lucas
primality certificate for the SM2 field prime, and reused by proofs about the
field operations.  This is proof infrastructure, not a translation of source
code. -/

def powModGo (m : ℕ) : ℕ → ℕ → ℕ → ℕ → ℕ
  | 0, acc, _, _ => acc
  | fuel+1, acc, b, k =>
    if k = 0 then acc
    else powModGo m fuel (if k % 2 = 1 then acc * b % m else acc) (b * b % m) (k / 2)

/-- Modular exponentiation `g ^ k mod m`, correct for `k < 2 ^ 300`. -/
def pmod (g k m : ℕ) : ℕ := powModGo m 300 (1 % m) g k

/-- The SM2 field prime `p`. -/
def sm2P : ℕ := 0xFFFFFFFEFFFFFFFFFFFFFFFFFFFFFFFFFFFFFFFF00000000FFFFFFFFFFFFFFFF

/-- The SM2 curve coefficient `a = p - 3`. -/
def sm2A : ℕ := 0xFFFFFFFEFFFFFFFFFFFFFFFFFFFFFFFFFFFFFFFF00000000FFFFFFFFFFFFFFFC

/-- The SM2 curve coefficient `b`. -/
def sm2B : ℕ := 0x28E9FA9E9D9F5E344D5A9E4BCF6509A7F39789F515AB8F92DDBCBD414D940E93

/-- The SM2 group order `n`. -/
def sm2N : ℕ := 0xFFFFFFFEFFFFFFFFFFFFFFFFFFFFFFFF7203DF6B21C6052B53BBF40939D54123

/-- The SM2 base-point x-coordinate. -/
def sm2Gx : ℕ := 0x32C4AE2C1F1981195F9904466A39C9948FE30BBFF2660BE1715A4589334C74C7

/-- The SM2 base-point y-coordinate. -/
def sm2Gy : ℕ := 0xBC3736A2F4F6779C59BDCEE36B692153D0A9877CC62A474002DF32E52139F0A0

/-! ### Hex parsing (translated from `src/sm3/utils.ts` and `src/sm2/utils.ts`)

Strings are modelled as lists of characters, byte arrays as lists of naturals
below 256.  JavaScript `parseInt(s, 16)` is modelled faithfully: leading
whitespace and an optional sign are skipped, an optional `0x`/`0X` prefix is
dropped, then the longest prefix of hexadecimal digits is converted; if that
prefix is empty the result is NaN (`none`). -/

def isJsWhitespace (c : Char) : Bool :=
  (9 ≤ c.toNat && c.toNat ≤ 13) || c.toNat = 32 || c.toNat = 160

def isHexDigit (c : Char) : Bool :=
  (48 ≤ c.toNat && c.toNat ≤ 57) ||
  (97 ≤ c.toNat && c.toNat ≤ 102) ||
  (65 ≤ c.toNat && c.toNat ≤ 70)

def hexDigitVal (c : Char) : ℕ :=
  if 48 ≤ c.toNat && c.toNat ≤ 57 then c.toNat - 48
  else if 97 ≤ c.toNat && c.toNat ≤ 102 then c.toNat - 87
  else if 65 ≤ c.toNat && c.toNat ≤ 70 then c.toNat - 55
  else 0

def parseIntHexCore (r : List Char) (sign : ℤ) : Option ℤ :=
  let r2 : List Char :=
    match r with
    | '0' :: 'x' :: t => t
    | '0' :: 'X' :: t => t
    | t => t
  let ds := r2.takeWhile isHexDigit
  if ds = [] then none
  else some (sign * (ds.foldl (fun a c => a * 16 + hexDigitVal c) 0 : ℕ))

/-- Model of JavaScript `Number.parseInt(s, 16)`; `none` is NaN. -/
def parseIntHex (s : List Char) : Option ℤ :=
  match s.dropWhile isJsWhitespace with
  | '+' :: r => parseIntHexCore r 1
  | '-' :: r => parseIntHexCore r (-1)
  | r => parseIntHexCore r 1

/-- JavaScript `Uint8Array` element coercion: NaN becomes 0, integers are
reduced modulo 256. -/
def jsToUint8 (v : Option ℤ) : ℕ :=
  match v with
  | none => 0
  | some v => (v % 256).toNat

def hexToBytesGo : List Char → Option (List ℕ)
  | c1 :: c2 :: rest =>
    match parseIntHex [c1, c2] with
    | none => none
    | some v =>
      if v < 0 then none
      else
        match hexToBytesGo rest with
        | none => none
        | some bs => some (v.toNat % 256 :: bs)
  | [_] => none
  | [] => some []

/-- `hexToBytes` from `src/sm3/utils.ts`: throws (`none`) on odd length and on
pairs whose `parseInt` yields NaN or a negative number. -/
def hexToBytes (hex : List Char) : Option (List ℕ) :=
  if hex.length % 2 = 1 then none else hexToBytesGo hex

/-- `leftPad` from `src/sm2/utils.ts`. -/
def leftPad (input : List Char) (num : ℕ) : List Char :=
  if num ≤ input.length then input
  else List.replicate (num - input.length) '0' ++ input

def hexToArrayGo : List Char → List ℕ
  | c1 :: c2 :: rest => jsToUint8 (parseIntHex [c1, c2]) :: hexToArrayGo rest
  | _ => []

/-- `hexToArray` from `src/sm2/utils.ts`: odd-length input is zero-left-padded,
and each pair is converted with `parseInt` followed by the `Uint8Array`
coercion; it never throws. -/
def hexToArray (hexStr : List Char) : List ℕ :=
  let padded := if hexStr.length % 2 ≠ 0 then leftPad hexStr (hexStr.length + 1) else hexStr
  hexToArrayGo padded

/-! ### Byte/integer conversions

Modelled from the spec: the library's `bytesToNumberBE` / `numberToBytesBE`
helpers (component A, "big-endian integer ↔ fixed-width bytes") live in
`src/sm2/curves/utils.ts`, which is not part of the reviewed tree. -/

/-- Modelled from the spec: big-endian interpretation of a byte string. -/
def bytesToNumberBE (bs : List ℕ) : ℕ :=
  bs.foldl (fun a b => a * 256 + b % 256) 0

/-- Modelled from the spec: fixed-width big-endian encoding of an integer. -/
def numberToBytesBE (x len : ℕ) : List ℕ :=
  (List.range len).map (fun i => x / 256 ^ (len - 1 - i) % 256)

/-! ### SM3 (modelled from the spec)

Modelled from the spec: the SM3 compression core (`src/sm2/sm3.ts` /
`src/sm3/index.ts`) is not part of the reviewed tree; the definitions below
follow §4.C of the specification (GM/T 0004).  Words are naturals reduced
modulo `2^32`. -/

def rotl32 (x n : ℕ) : ℕ := ((x <<< n) ||| (x >>> (32 - n))) % 4294967296

def notU32 (x : ℕ) : ℕ := x ^^^ 0xFFFFFFFF

def sm3P0 (x : ℕ) : ℕ := x ^^^ rotl32 x 9 ^^^ rotl32 x 17

def sm3P1 (x : ℕ) : ℕ := x ^^^ rotl32 x 15 ^^^ rotl32 x 23

def sm3FF (j x y z : ℕ) : ℕ :=
  if j < 16 then x ^^^ y ^^^ z else (x &&& y) ||| (x &&& z) ||| (y &&& z)

def sm3GG (j x y z : ℕ) : ℕ :=
  if j < 16 then x ^^^ y ^^^ z else (x &&& y) ||| (notU32 x &&& z)

def sm3T (j : ℕ) : ℕ := if j < 16 then 0x79CC4519 else 0x7A879D8A

/-- Message-expansion loop: extends the word list up to `W[67]`. -/
def sm3ExpandGo : ℕ → List ℕ → List ℕ
  | 0, W => W
  | k+1, W =>
    let j := W.length
    sm3ExpandGo k (W ++ [sm3P1 ((W.getD (j-16) 0) ^^^ (W.getD (j-9) 0) ^^^
        rotl32 (W.getD (j-3) 0) 15) ^^^ rotl32 (W.getD (j-13) 0) 7 ^^^ (W.getD (j-6) 0)])

def wordsOfBytes : List ℕ → List ℕ
  | b0 :: b1 :: b2 :: b3 :: rest =>
    (b0 % 256 * 16777216 + b1 % 256 * 65536 + b2 % 256 * 256 + b3 % 256) :: wordsOfBytes rest
  | _ => []

def bytesOfWord (w : ℕ) : List ℕ :=
  [w / 16777216 % 256, w / 65536 % 256, w / 256 % 256, w % 256]

def sm3IV : List ℕ :=
  [0x7380166F, 0x4914B2B9, 0x172442D7, 0xDA8A0600, 0xA96F30BC, 0x163138AA, 0xE38DEE4D, 0xB0FB0E4E]

def sm3Rounds (W : List ℕ) : ℕ → ℕ → ℕ × ℕ × ℕ × ℕ × ℕ × ℕ × ℕ × ℕ → ℕ × ℕ × ℕ × ℕ × ℕ × ℕ × ℕ × ℕ
  | 0, _, st => st
  | k+1, j, (A, B, C, D, E, F, G, H) =>
    let SS1 := rotl32 ((rotl32 A 12 + E + rotl32 (sm3T j) (j % 32)) % 4294967296) 7
    let SS2 := SS1 ^^^ rotl32 A 12
    let TT1 := (sm3FF j A B C + D + SS2 + ((W.getD j 0) ^^^ (W.getD (j+4) 0))) % 4294967296
    let TT2 := (sm3GG j E F G + H + SS1 + W.getD j 0) % 4294967296
    sm3Rounds W k (j+1) (TT1, A, rotl32 B 9, C, sm3P0 TT2, E, rotl32 F 19, G)

/-- One SM3 compression-function application on a 64-byte block. -/
def sm3Compress (V : List ℕ) (block : List ℕ) : List ℕ :=
  let W := sm3ExpandGo 52 (wordsOfBytes block)
  match sm3Rounds W 64 0
      (V.getD 0 0, V.getD 1 0, V.getD 2 0, V.getD 3 0,
       V.getD 4 0, V.getD 5 0, V.getD 6 0, V.getD 7 0) with
  | (A, B, C, D, E, F, G, H) =>
    [(V.getD 0 0) ^^^ A, (V.getD 1 0) ^^^ B, (V.getD 2 0) ^^^ C, (V.getD 3 0) ^^^ D,
     (V.getD 4 0) ^^^ E, (V.getD 5 0) ^^^ F, (V.getD 6 0) ^^^ G, (V.getD 7 0) ^^^ H]

def sm3Blocks : ℕ → List ℕ → List ℕ → List ℕ
  | 0, V, _ => V
  | _+1, V, [] => V
  | k+1, V, rest => sm3Blocks k (sm3Compress V (rest.take 64)) (rest.drop 64)

/-- Modelled from the spec: the SM3 hash of a byte string (Merkle–Damgård
driver with the padding of §4.C). -/
def sm3 (msg : List ℕ) : List ℕ :=
  let withOne := msg ++ [0x80]
  let zeros := (120 - withOne.length % 64) % 64
  let padded := withOne ++ List.replicate zeros 0 ++ numberToBytesBE (msg.length * 8) 8
  let V := sm3Blocks padded.length sm3IV padded
  V.flatMap bytesOfWord

/-! ### KDF (translated from `src/sm2/kdf.ts`) -/

def kdfGo (z iv : List ℕ) : ℕ → ℕ → List ℕ → ℕ → List ℕ
  | 0, _, _, _ => []
  | k+1, ct, t, off =>
    if off = t.length then
      let t2 := sm3 (z ++ numberToBytesBE ct 4 ++ iv)
      t2.getD 0 0 :: kdfGo z iv k (ct+1) t2 1
    else
      t.getD off 0 :: kdfGo z iv k ct t (off+1)

/-- `kdf` from `src/sm2/kdf.ts`: the streaming counter-mode derivation loop.
The first block is produced eagerly (`nextT()` before the loop), then bytes
are emitted one at a time, fetching a fresh block when the previous one is
exhausted. -/
def kdf (z : List ℕ) (keylen : ℕ) (iv : List ℕ) : List ℕ :=
  let t1 := sm3 (z ++ numberToBytesBE 1 4 ++ iv)
  kdfGo z iv keylen 2 t1 0

/-- The specification's description of the KDF: `t = ⌈klen/32⌉` blocks
`Hᵢ = SM3(Z ‖ ct(i) ‖ IV)` with a 4-byte big-endian counter starting at 1,
concatenated and truncated to `klen`. -/
def kdfSpec (z : List ℕ) (keylen : ℕ) (iv : List ℕ) : List ℕ :=
  (((List.range ((keylen + 31) / 32)).map
    (fun i => sm3 (z ++ numberToBytesBE (i+1) 4 ++ iv))).flatten).take keylen

/-- Proof infrastructure: the concatenation of `cnt` KDF blocks whose
counters start at `s`. -/
def kdfBlocks (z iv : List ℕ) (s cnt : ℕ) : List ℕ :=
  ((List.range' s cnt).map (fun i => sm3 (z ++ numberToBytesBE i 4 ++ iv))).flatten

/-! ### Modular arithmetic (translated from `src/sm2/curves/modular.ts`)

JSBI big integers are modelled as `ℤ`; `JSBI.remainder` is truncated
remainder (`Int.tmod`), `JSBI.divide` truncated division.  Loops are
fuel-driven; exhausted fuel yields `none` (the source loops terminate on the
inputs the library uses).  Thrown exceptions are modelled as `none`. -/

/-- `mod` from `modular.ts`: truncated remainder, shifted into `[0, b)` when
negative. -/
def jmod (a b : ℤ) : ℤ :=
  let result := Int.tmod a b
  if 0 ≤ result then result else b + result

/-- The extended-Euclid loop of `invert`.  The non-negative pair `(a, b)` is
kept as naturals, the Bézout coefficients as integers.  Returns `(gcd, x)`. -/
def invertGo : ℕ → ℕ → ℕ → ℤ → ℤ → ℤ → ℤ → Option (ℕ × ℤ)
  | 0, _, _, _, _, _, _ => none
  | fuel+1, a, b, x, y, u, v =>
    if a = 0 then some (b, x)
    else
      let q : ℕ := b / a
      let r : ℕ := b % a
      let m : ℤ := x - u * q
      let n : ℤ := y - v * q
      invertGo fuel r a u v m n

/-- `invert` from `modular.ts`: modular inverse by extended Euclid; throws
(`none`) on zero input, non-positive modulus, or a non-trivial gcd. -/
def invert (number modulo : ℤ) : Option ℤ :=
  if number = 0 ∨ modulo ≤ 0 then none
  else
    let a0 := (jmod number modulo).toNat
    match invertGo (a0 + 1) a0 modulo.toNat 0 1 1 0 with
    | none => none
    | some (gcd, x) => if gcd = 1 then some (jmod x modulo) else none

/-- The square-and-multiply loop shared by `pow` and `FpPow`; `red` is the
reduction applied after each product (`JSBI.remainder` for `pow`, the field
`mul`/`sqr` for `FpPow`). -/
def powLadderGo (red : ℤ → ℤ) : ℕ → ℤ → ℤ → ℕ → ℤ
  | 0, res, _, _ => res
  | fuel+1, res, num, power =>
    if power = 0 then res
    else powLadderGo red fuel (if power % 2 = 1 then red (res * num) else res)
      (red (num * num)) (power / 2)

/-- `pow` from `modular.ts` (plain modular exponentiation with truncated
remainder); the source throws on a negative power, so the power is a natural
here. -/
def ipow (num : ℤ) (power : ℕ) (modulo : ℤ) : ℤ :=
  if modulo = 1 then 0
  else powLadderGo (fun t => Int.tmod t modulo) (power + 1) 1 num power

/-- `FpPow` from `modular.ts`: the field exponentiation ladder with its
special cases for powers 0 and 1. -/
def FpPow (ORDER num : ℤ) (power : ℕ) : ℤ :=
  if power = 0 then 1
  else if power = 1 then num
  else powLadderGo (fun t => jmod t ORDER) (power + 1) 1 num power

/-- `sqrt3mod4` from `FpSqrt` in `modular.ts`: `n ^ ((P+1)/4)`, verified by
squaring. -/
def sqrt3mod4 (P n : ℤ) : Option ℤ :=
  let root := FpPow P n ((P + 1) / 4).toNat
  if jmod (root * root) P = n then some root else none

/-- `sqrt5mod8` from `FpSqrt` in `modular.ts`. -/
def sqrt5mod8 (P n : ℤ) : Option ℤ :=
  let c1 := ((P - 5) / 8).toNat
  let n2 := jmod (n * 2) P
  let v := FpPow P n2 c1
  let nv := jmod (n * v) P
  let i := jmod (jmod (nv * 2) P * v) P
  let root := jmod (nv * jmod (i - 1) P) P
  if jmod (root * root) P = n then some root else none

/-- The `Q, S` decomposition loop of `tonelliShanks` (`P - 1 = Q * 2^S`). -/
def tsQSGo : ℕ → ℕ → ℕ → ℕ × ℕ
  | 0, Q, S => (Q, S)
  | fuel+1, Q, S => if Q % 2 = 0 then tsQSGo fuel (Q / 2) (S + 1) else (Q, S)

/-- The non-residue search loop of `tonelliShanks`. -/
def tsZGo (P : ℤ) (legendreC : ℕ) : ℕ → ℤ → ℤ
  | 0, Z => Z
  | fuel+1, Z =>
    if Z < P ∧ ¬(ipow Z legendreC P = P - 1) then tsZGo P legendreC fuel (Z + 1) else Z

/-- The inner `m`-search of `tonelliSlow`. -/
def tsFindM (P : ℤ) : ℕ → ℤ → ℕ → ℕ → ℕ
  | 0, _, m, _ => m
  | fuel+1, t2, m, r =>
    if m < r then (if t2 = 1 then m else tsFindM P fuel (jmod (t2 * t2) P) (m + 1) r)
    else m

/-- The outer loop of `tonelliSlow`. -/
def tsLoop (P : ℤ) : ℕ → ℤ → ℤ → ℤ → ℕ → Option ℤ
  | 0, _, _, _, _ => none
  | fuel+1, g, x, b, r =>
    if b = 1 then some x
    else if b = 0 then some 0
    else
      let m := tsFindM P r (jmod (b * b) P) 1 r
      let ge := FpPow P g (2 ^ (r - m - 1))
      let g2 := jmod (ge * ge) P
      let x2 := jmod (x * ge) P
      let b2 := jmod (b * g2) P
      tsLoop P fuel g2 x2 b2 m

/-- `tonelliShanks` from `modular.ts`.  The source compares JSBI objects with
`===` in two places (`S === _1n` and the Legendre pre-check); these are
modelled as value comparisons, which is the upstream noble-curves semantics
the port transcribed. -/
def tonelliShanks (P n : ℤ) : Option ℤ :=
  let legendreC := ((P - 1) / 2).toNat
  let QS := tsQSGo (P - 1).toNat (P - 1).toNat 0
  let Q := QS.1
  let S := QS.2
  let Z := tsZGo P legendreC P.toNat 2
  if S = 1 then
    let root := FpPow P n ((P + 1) / 4).toNat
    if jmod (root * root) P = n then some root else none
  else
    let Q1div2 := (Q + 1) / 2
    if FpPow P n legendreC = jmod (-1) P then none
    else
      let g := FpPow P (jmod (1 * Z) P) Q
      let x := FpPow P n Q1div2
      let b := FpPow P n Q
      tsLoop P (S + 1) g x b S

/-- `FpSqrt` from `modular.ts`: dispatch on `P mod 4` / `P mod 8` with
Tonelli–Shanks as the general case (the `P ≡ 9 (mod 16)` branch of the source
is an empty placeholder that falls through). -/
def FpSqrt (P n : ℤ) : Option ℤ :=
  if Int.tmod P 4 = 3 then sqrt3mod4 P n
  else if Int.tmod P 8 = 5 then sqrt5mod8 P n
  else tonelliShanks P n

/-! Field operations from `Field(ORDER)` in `modular.ts`. -/

def fieldCreate (ORDER num : ℤ) : ℤ := jmod num ORDER

def fieldAdd (ORDER lhs rhs : ℤ) : ℤ := jmod (lhs + rhs) ORDER

def fieldSub (ORDER lhs rhs : ℤ) : ℤ := jmod (lhs - rhs) ORDER

def fieldMul (ORDER lhs rhs : ℤ) : ℤ := jmod (lhs * rhs) ORDER

def fieldSqr (ORDER num : ℤ) : ℤ := jmod (num * num) ORDER

def fieldNeg (ORDER num : ℤ) : ℤ := jmod (-num) ORDER

def fieldInv (ORDER num : ℤ) : Option ℤ := invert num ORDER

def fieldDiv (ORDER lhs rhs : ℤ) : Option ℤ :=
  match invert rhs ORDER with
  | none => none
  | some i => some (jmod (lhs * i) ORDER)

/-- The first pass of `FpInvertBatch` (`nums.reduce`): accumulates prefix
products, leaving `none` holes at zero elements, and returns the total
product. -/
def batchFwd (P : ℤ) : List ℤ → ℤ → List (Option ℤ) × ℤ
  | [], acc => ([], acc)
  | a :: rest, acc =>
    if a = 0 then
      let tl := batchFwd P rest acc
      (none :: tl.1, tl.2)
    else
      let tl := batchFwd P rest (jmod (acc * a) P)
      (some acc :: tl.1, tl.2)

/-- The second pass of `FpInvertBatch` (`nums.reduceRight`), expressed on the
reversed lists: multiplies each stored prefix by the running suffix inverse. -/
def batchBwd (P : ℤ) : List ℤ → List (Option ℤ) → ℤ → List (Option ℤ)
  | [], ts, _ => ts
  | a :: rest, t :: ts, acc =>
    if a = 0 then t :: batchBwd P rest ts acc
    else (t.map fun w => jmod (acc * w) P) :: batchBwd P rest ts (jmod (acc * a) P)
  | _ :: _, [], _ => []

/-- `FpInvertBatch` from `modular.ts`: prefix products, one `inv`, fold back.
Positions holding zero elements stay `none` (JavaScript `undefined`). -/
def FpInvertBatch (P : ℤ) (nums : List ℤ) : Option (List (Option ℤ)) :=
  let fwd := batchFwd P nums 1
  match invert fwd.2 P with
  | none => none
  | some inverted => some (batchBwd P nums.reverse fwd.1.reverse inverted).reverse

/-- Proof infrastructure: the product, in `ZMod P`, of the nonzero entries of
an integer list (the quantity accumulated by the two `FpInvertBatch`
passes). -/
def zfilterProd (P : ℕ) (l : List ℤ) : ZMod P :=
  ((l.filter (fun a => a != 0)).map (fun a => (Int.cast a : ZMod P))).prod

/-! ### Private-key derivation (translated from `modular.ts`) -/

def bitLenGo : ℕ → ℕ → ℕ
  | 0, _ => 0
  | fuel+1, n => if n = 0 then 0 else bitLenGo fuel (n / 2) + 1

/-- Binary length of a natural (`toString(2).length`); correct below
`2 ^ 4096`, which covers every order the library instantiates. -/
def bitLen (n : ℕ) : ℕ := if n = 0 then 1 else bitLenGo 4096 n

/-- `getFieldBytesLength` from `modular.ts`. -/
def getFieldBytesLength (fieldOrder : ℕ) : ℕ := (bitLen fieldOrder + 7) / 8

/-- `getMinHashLength` from `modular.ts`. -/
def getMinHashLength (fieldOrder : ℕ) : ℕ :=
  let length := getFieldBytesLength fieldOrder
  length + (length + 1) / 2

/-- `mapHashToField` from `modular.ts` (big-endian branch): length check,
reduction `d = (raw mod (order-1)) + 1`, fixed-width re-encoding. -/
def mapHashToField (key : List ℕ) (fieldOrder : ℕ) : Option (List ℕ) :=
  let len := key.length
  let fieldLen := getFieldBytesLength fieldOrder
  let minLen := getMinHashLength fieldOrder
  if len < 16 ∨ len < minLen ∨ 1024 < len then none
  else
    let num := bytesToNumberBE key
    let reduced := num % (fieldOrder - 1) + 1
    some (numberToBytesBE reduced fieldLen)

/-! ### Z-value (modelled from the spec)

Modelled from the spec: `getZ` (`src/sm2/index.ts`) is not part of the
reviewed tree; §4.G specifies
`Z = SM3(ENTL ‖ ID ‖ a ‖ b ‖ Gx ‖ Gy ‖ Px ‖ Py)` with ENTL the 16-bit
big-endian bit-length of the identifier and 32-byte big-endian field
elements.  The public key is passed in its 65-byte uncompressed encoding. -/

def getZ (pub : List ℕ) (id : List ℕ) : List ℕ :=
  let entl := numberToBytesBE (id.length * 8) 2
  let px := (pub.drop 1).take 32
  let py := (pub.drop 33).take 32
  sm3 (entl ++ id ++ numberToBytesBE sm2A 32 ++ numberToBytesBE sm2B 32 ++
    numberToBytesBE sm2Gx 32 ++ numberToBytesBE sm2Gy 32 ++ px ++ py)

/-! ### Key agreement (translated from the key-exchange module)

`calculateSharedKey` is translated from the key-exchange source file.  The
elliptic-curve point layer it calls (`sm2Curve.ProjectivePoint`, from the
vendored noble-curves `weierstrass.ts`, not part of the reviewed tree) is
abstracted as a point type with addition, scalar multiplication and affine
coordinate extraction; `coords` returns `none` at the point at infinity,
where the source's `.x`/`.y` accessors throw, and scalar multiplication by
zero is rejected up front exactly where the source's `multiply` would throw
on an out-of-range scalar (`tA` is already reduced mod `n`, so `tA = 0` is
the only failing case).  The Z-value function is likewise a parameter. -/

def wPow2 : ℕ := 0x80000000000000000000000000000000

def wPow2Sub1 : ℕ := 0x7fffffffffffffffffffffffffffffff

def calculateSharedKey {Pt : Type}
    (padd : Pt → Pt → Pt) (pmul : ℕ → Pt → Pt) (coords : Pt → Option (ℕ × ℕ))
    (getZfn : List ℕ → List ℕ → List ℕ)
    (pubA pubB : List ℕ)
    (dA rA : ℕ) (RA RB PB : Pt)
    (sharedKeyLength : ℕ) (isRecipient : Bool)
    (idA idB : List ℕ) : Option (List ℕ) :=
  let ZA0 := getZfn pubA idA
  let ZB0 := getZfn pubB idB
  let ZA := if isRecipient then ZB0 else ZA0
  let ZB := if isRecipient then ZA0 else ZB0
  match coords RA with
  | none => none
  | some xy1 =>
    let x1b := wPow2 + (xy1.1 &&& wPow2Sub1)
    let tA := (dA + x1b * rA) % sm2N
    match coords RB with
    | none => none
    | some xy2 =>
      let x2b := (wPow2 + (xy2.1 &&& wPow2Sub1)) % sm2N
      if tA = 0 then none
      else
        let U := pmul tA (padd (pmul x2b RB) PB)
        match coords U with
        | none => none
        | some xyU =>
          some (kdf (numberToBytesBE xyU.1 32 ++ numberToBytesBE xyU.2 32 ++ ZA ++ ZB)
            sharedKeyLength [])

/-! ### Concrete SM2 curve (modelled from the spec)

Modelled from the spec: the point layer (§4.E) stores points in Jacobian
coordinates `(X, Y, Z)` with `x = X/Z²`, `y = Y/Z³`, the point at infinity
having `Z = 0`.  Standard Jacobian doubling/addition formulas over the SM2
prime field instantiate the abstract point parameters of
`calculateSharedKey` for concrete computation. -/

def pAdd (a b : ℕ) : ℕ := (a + b) % sm2P

def pSub (a b : ℕ) : ℕ := (a % sm2P + sm2P - b % sm2P) % sm2P

def pMul (a b : ℕ) : ℕ := a * b % sm2P

/-- Jacobian point: `(X, Y, Z)`; infinity iff `Z ≡ 0 (mod p)`. -/
def JPoint : Type := ℕ × ℕ × ℕ

def jInfinity : JPoint := (1, 1, 0)

def jDouble : JPoint → JPoint
  | (X1, Y1, Z1) =>
    if Z1 % sm2P = 0 then jInfinity
    else if Y1 % sm2P = 0 then jInfinity
    else
      let A := pMul X1 X1
      let B := pMul Y1 Y1
      let C := pMul B B
      let D := pMul 2 (pSub (pSub (pMul (pAdd X1 B) (pAdd X1 B)) A) C)
      let Z2 := pMul Z1 Z1
      let E := pAdd (pMul 3 A) (pMul sm2A (pMul Z2 Z2))
      let X3 := pSub (pMul E E) (pMul 2 D)
      let Y3 := pSub (pMul E (pSub D X3)) (pMul 8 C)
      let Z3 := pMul 2 (pMul Y1 Z1)
      (X3, Y3, Z3)

def jAdd : JPoint → JPoint → JPoint
  | (X1, Y1, Z1), (X2, Y2, Z2) =>
    if Z1 % sm2P = 0 then (X2, Y2, Z2)
    else if Z2 % sm2P = 0 then (X1, Y1, Z1)
    else
      let Z1Z1 := pMul Z1 Z1
      let Z2Z2 := pMul Z2 Z2
      let U1 := pMul X1 Z2Z2
      let U2 := pMul X2 Z1Z1
      let S1 := pMul Y1 (pMul Z2Z2 Z2)
      let S2 := pMul Y2 (pMul Z1Z1 Z1)
      if U1 = U2 then
        (if S1 = S2 then jDouble (X1, Y1, Z1) else jInfinity)
      else
        let H := pSub U2 U1
        let R := pSub S2 S1
        let HH := pMul H H
        let HHH := pMul HH H
        let X3 := pSub (pSub (pMul R R) HHH) (pMul 2 (pMul U1 HH))
        let Y3 := pSub (pMul R (pSub (pMul U1 HH) X3)) (pMul S1 HHH)
        let Z3 := pMul H (pMul Z1 Z2)
        (X3, Y3, Z3)

def jMulGo : ℕ → JPoint → JPoint → ℕ → JPoint
  | 0, acc, _, _ => acc
  | fuel+1, acc, base, k =>
    if k = 0 then acc
    else jMulGo fuel (if k % 2 = 1 then jAdd acc base else acc) (jDouble base) (k / 2)

/-- Binary double-and-add scalar multiplication. -/
def jMul (k : ℕ) (P : JPoint) : JPoint := jMulGo (k + 1) jInfinity P k

/-- Affine coordinates `x = X/Z²`, `y = Y/Z³`; `none` at infinity. -/
def jCoords (P : JPoint) : Option (ℕ × ℕ) :=
  match P with
  | (X, Y, Z) =>
    if Z % sm2P = 0 then none
    else
      match invert (Z % sm2P : ℕ) sm2P with
      | none => none
      | some zi =>
        let z1 := zi.toNat
        let zi2 := z1 * z1 % sm2P
        let zi3 := zi2 * z1 % sm2P
        some (X * zi2 % sm2P, Y * zi3 % sm2P)

/-- Modelled from the spec: decoding of an uncompressed point
(`0x04 ‖ X(32) ‖ Y(32)`, §4.E): validate the prefix and the curve
equation. -/
def fromHexUncompressed (bs : List ℕ) : Option (ℕ × ℕ) :=
  match bs with
  | 4 :: rest =>
    if rest.length = 64 then
      let x := bytesToNumberBE (rest.take 32)
      let y := bytesToNumberBE (rest.drop 32)
      if x < sm2P ∧ y < sm2P ∧ (y * y) % sm2P = (x * x % sm2P * x + sm2A * x + sm2B) % sm2P
      then some (x, y) else none
    else none
  | _ => none

/-- The concrete shared-key computation: the abstract point layer of
`calculateSharedKey` instantiated with the Jacobian SM2 curve and the
spec-modelled Z-value. -/
def calculateSharedKeySM2 (dA rA : ℕ) (pubA ephPubA pubB ephPubB : List ℕ)
    (klen : ℕ) (isRecipient : Bool) (idA idB : List ℕ) : Option (List ℕ) :=
  match fromHexUncompressed ephPubA, fromHexUncompressed ephPubB, fromHexUncompressed pubB with
  | some ra, some rb, some pb =>
    calculateSharedKey jAdd jMul jCoords getZ pubA pubB dA rA
      (ra.1, ra.2, 1) (rb.1, rb.2, 1) (pb.1, pb.2, 1) klen isRecipient idA idB
  | _, _, _ => none

/-! ### The GM/T key-agreement test vector (from `src/test/kx.test.ts`) -/

def kxUncompressed (x y : ℕ) : List ℕ := 4 :: (numberToBytesBE x 32 ++ numberToBytesBE y 32)

def kxId : List ℕ := [49, 50, 51, 52, 53, 54, 55, 56, 49, 50, 51, 52, 53, 54, 55, 56]

def kxPrivA : ℕ := 0x81EB26E941BB5AF16DF116495F90695272AE2CD63D6C4AE1678418BE48230029

def kxPubA : List ℕ :=
  kxUncompressed 0x160E12897DF4EDB61DD812FEB96748FBD3CCF4FFE26AA6F6DB9540AF49C94232
    0x4A7DAD08BB9A459531694BEB20AA489D6649975E1BFCF8C4741B78B4B223007F

def kxEphPrivA : ℕ := 0xD4DE15474DB74D06491C440D305E012400990F3E390C7E87153C12DB2EA60BB3

def kxEphPubA : List ℕ :=
  kxUncompressed 0x64CED1BDBC99D590049B434D0FD73428CF608A5DB8FE5CE07F15026940BAE40E
    0x376629C7AB21E7DB260922499DDB118F07CE8EAAE3E7720AFEF6A5CC062070C0

def kxPubB : List ℕ :=
  kxUncompressed 0x6AE848C57C53C7B1B5FA99EB2286AF078BA64C64591B8B566F7357D576F16DFB
    0xEE489D771621A27B36C5C7992062E9CD09A9264386F3FBEA54DFF69305621C4D

def kxEphPubB : List ℕ :=
  kxUncompressed 0xACC27688A6F7B706098BC91FF3AD1BFF7DC2802CDB14CCCCDB0A90471F9BD707
    0x2FEDAC0494B2FFC4D6853876C79B8F301C6573AD0AA50F39FC87181E1A1B46FE

def kxExpected : List ℕ :=
  [0x6C, 0x89, 0x34, 0x73, 0x54, 0xDE, 0x24, 0x84, 0xC6, 0x0B, 0x4A, 0xB1, 0xFD, 0xE4, 0xC6, 0xE5]

end SmCrypto

namespace SmCrypto

/-! ### Correctness of the exponentiation ladder, and primality certificates -/

theorem powModGo_eq (m : ℕ) (hm : 0 < m) :
    ∀ fuel k acc b, k < 2 ^ fuel → acc < m →
      powModGo m fuel acc b k = acc * b ^ k % m := by
  intro fuel
  induction fuel with
  | zero =>
    intro k acc b hk hacc
    interval_cases k
    simpa [powModGo] using (Nat.mod_eq_of_lt hacc).symm
  | succ fuel ih =>
    intro k acc b hk hacc
    by_cases h0 : k = 0
    · subst h0
      simpa [powModGo] using (Nat.mod_eq_of_lt hacc).symm
    · have hk2 : k / 2 < 2 ^ fuel := by
        have : k < 2 ^ fuel * 2 := by
          simpa [pow_succ] using hk
        exact Nat.div_lt_of_lt_mul (by omega)
      have hstep : powModGo m (fuel+1) acc b k
          = powModGo m fuel (if k % 2 = 1 then acc * b % m else acc) (b * b % m) (k / 2) := by
        simp [powModGo, h0]
      rcases Nat.even_or_odd k with he | ho
      · have hmod2 : k % 2 = 0 := Nat.even_iff.mp he
        rw [hstep, if_neg (by omega)]
        rw [ih (k / 2) acc (b * b % m) hk2 hacc]
        have hk' : 2 * (k / 2) = k := by omega
        have h1 : acc * (b * b % m) ^ (k / 2) ≡ acc * (b * b) ^ (k / 2) [MOD m] :=
          Nat.ModEq.mul_left acc (Nat.ModEq.pow _ (Nat.mod_modEq _ _))
        have h3 : (b * b) ^ (k / 2) = b ^ k := by
          rw [← pow_two, ← pow_mul, hk']
        rw [h3] at h1
        exact h1
      · have hmod2 : k % 2 = 1 := Nat.odd_iff.mp ho
        rw [hstep, if_pos hmod2]
        have hacc' : acc * b % m < m := Nat.mod_lt _ hm
        rw [ih (k / 2) (acc * b % m) (b * b % m) hk2 hacc']
        have hk' : 2 * (k / 2) + 1 = k := by omega
        have h1 : (acc * b % m) * (b * b % m) ^ (k / 2)
            ≡ (acc * b) * (b * b) ^ (k / 2) [MOD m] :=
          Nat.ModEq.mul (Nat.mod_modEq _ _) (Nat.ModEq.pow _ (Nat.mod_modEq _ _))
        have h3 : acc * b * (b * b) ^ (k / 2) = acc * b ^ k := by
          rw [mul_assoc, ← pow_two, ← pow_mul, ← pow_succ', hk']
        rw [h3] at h1
        exact h1

theorem pmod_eq (g k m : ℕ) (hm : 0 < m) (hk : k < 2 ^ 300) :
    pmod g k m = g ^ k % m := by
  unfold pmod
  rw [powModGo_eq m hm 300 k (1 % m) g hk (Nat.mod_lt _ hm)]
  have h : 1 % m * g ^ k ≡ g ^ k [MOD m] := by
    simpa using Nat.ModEq.mul_right (g ^ k) (Nat.mod_modEq 1 m)
  exact h

theorem prime_mem_of_dvd_prod (r : ℕ) (hr : Nat.Prime r) :
    ∀ L : List ℕ, (∀ q ∈ L, Nat.Prime q) → r ∣ L.prod → r ∈ L := by
  intro L
  induction L with
  | nil =>
    intro _ hdvd
    simp only [List.prod_nil] at hdvd
    exact absurd (Nat.eq_one_of_dvd_one hdvd) hr.ne_one
  | cons q t ih =>
    intro hall hdvd
    rw [List.prod_cons] at hdvd
    rcases (Nat.Prime.dvd_mul hr).mp hdvd with h | h
    · have hq := hall q (List.mem_cons_self q t)
      have : r = q := (Nat.prime_dvd_prime_iff_eq hr hq).mp h
      simp [this]
    · exact List.mem_cons_of_mem _ (ih (fun x hx => hall x (List.mem_cons_of_mem _ hx)) h)

/-- A Lucas (Pratt) primality certificate checker: `g` is a witness of order
`p - 1`, and `L` lists the prime factors of `p - 1` with multiplicity. -/
theorem prime_of_cert (p g : ℕ) (L : List ℕ) (hp : 2 ≤ p) (hsize : p < 2 ^ 300)
    (hL : ∀ q ∈ L, Nat.Prime q)
    (hprod : L.prod = p - 1)
    (hpow : pmod g (p - 1) p = 1)
    (hdiv : ∀ q ∈ L, pmod g ((p - 1) / q) p ≠ 1) : Nat.Prime p := by
  have hm : 0 < p := by omega
  have hk : p - 1 < 2 ^ 300 := by omega
  have hcast : ∀ k : ℕ, k < 2 ^ 300 → ((g : ZMod p) ^ k = 1 ↔ pmod g k p = 1) := by
    intro k hk'
    rw [pmod_eq g k p hm hk']
    rw [← Nat.cast_pow, ← Nat.cast_one, ZMod.natCast_eq_natCast_iff']
    rw [Nat.one_mod_eq_one.mpr (by omega)]
  refine lucas_primality p (g : ZMod p) ?_ ?_
  · exact (hcast (p - 1) hk).mpr hpow
  · intro q hq hqdvd
    have hqmem : q ∈ L := prime_mem_of_dvd_prod q hq L hL (hprod ▸ hqdvd)
    have hklt : (p - 1) / q < 2 ^ 300 := lt_of_le_of_lt (Nat.div_le_self _ _) hk
    intro hcontra
    exact hdiv q hqmem ((hcast _ hklt).mp hcontra)

theorem prime_3017783777 : Nat.Prime 3017783777 :=
  prime_of_cert 3017783777 3 [2, 2, 2, 2, 2, 7, 7, 337, 5711]
    (by norm_num) (by norm_num)
    (by intro q hq; fin_cases hq <;> norm_num)
    (by decide) (by decide) (by decide)

theorem prime_348253387243 : Nat.Prime 348253387243 :=
  prime_of_cert 348253387243 3 [2, 3, 61, 5303, 179429]
    (by norm_num) (by norm_num)
    (by intro q hq; fin_cases hq <;> norm_num)
    (by decide) (by decide) (by decide)

theorem prime_4641351449027 : Nat.Prime 4641351449027 :=
  prime_of_cert 4641351449027 2 [2, 769, 3017783777]
    (by norm_num) (by norm_num)
    (by
      intro q hq
      fin_cases hq
      · norm_num
      · norm_num
      · exact prime_3017783777)
    (by decide) (by decide) (by decide)

theorem prime_417514796639753 : Nat.Prime 417514796639753 :=
  prime_of_cert 417514796639753 3 [2, 2, 2, 7, 367, 2473, 8214737]
    (by norm_num) (by norm_num)
    (by intro q hq; fin_cases hq <;> norm_num)
    (by decide) (by decide) (by decide)

theorem prime_4773264379806847 : Nat.Prime 4773264379806847 :=
  prime_of_cert 4773264379806847 3 [2, 3, 7, 11, 823, 34511, 363761]
    (by norm_num) (by norm_num)
    (by intro q hq; fin_cases hq <;> norm_num)
    (by decide) (by decide) (by decide)

theorem prime_66013261729388519804782124120027 :
    Nat.Prime 66013261729388519804782124120027 :=
  prime_of_cert 66013261729388519804782124120027 2
    [2, 13, 1213, 71209, 6158099, 4773264379806847]
    (by norm_num) (by norm_num)
    (by
      intro q hq
      fin_cases hq
      · norm_num
      · norm_num
      · norm_num
      · norm_num
      · norm_num
      · exact prime_4773264379806847)
    (by decide) (by decide) (by decide)

/-- The SM2 field prime is indeed prime (Pratt certificate). -/
theorem sm2P_prime : Nat.Prime sm2P := by
  have h := prime_of_cert sm2P 13
    [2, 43, 30223, 348253387243, 4641351449027, 417514796639753,
     66013261729388519804782124120027]
    (by norm_num [sm2P]) (by norm_num [sm2P])
    (by
      intro q hq
      fin_cases hq
      · norm_num
      · norm_num
      · norm_num
      · exact prime_348253387243
      · exact prime_4641351449027
      · exact prime_417514796639753
      · exact prime_66013261729388519804782124120027)
    (by decide) (by decide) (by decide)
  exact h

/-! ### Properties of `jmod` -/

theorem tmod_neg_left : ∀ a b : ℤ, Int.tmod (-a) b = -Int.tmod a b := by
  intro a b
  cases a with
  | ofNat m =>
    cases m with
    | zero => simp
    | succ m =>
      cases b with
      | ofNat n => rfl
      | negSucc n => rfl
  | negSucc m =>
    cases b with
    | ofNat n =>
      show Int.tmod (Int.ofNat (m+1)) (Int.ofNat n) = -Int.tmod (Int.negSucc m) (Int.ofNat n)
      rw [show Int.tmod (Int.negSucc m) (Int.ofNat n) = -Int.ofNat ((m+1) % n) from rfl, neg_neg]
      rfl
    | negSucc n =>
      show Int.tmod (Int.ofNat (m+1)) (Int.negSucc n) = -Int.tmod (Int.negSucc m) (Int.negSucc n)
      rw [show Int.tmod (Int.negSucc m) (Int.negSucc n) = -Int.ofNat ((m+1) % (n+1)) from rfl,
        neg_neg]
      rfl

theorem jmod_emod (a b : ℤ) (hb : 0 < b) : jmod a b = a % b := by
  simp only [jmod]
  have hd : Int.tmod a b = a - b * Int.tdiv a b := Int.tmod_def a b
  by_cases h : 0 ≤ Int.tmod a b
  · rw [if_pos h]
    have h1 : Int.tmod a b < b := Int.tmod_lt_of_pos a hb
    have h2 : Int.tmod a b % b = Int.tmod a b := Int.emod_eq_of_lt h h1
    have h3 : Int.tmod a b % b = a % b := by
      conv_lhs => rw [hd]
      have he : a - b * Int.tdiv a b = a + b * (-Int.tdiv a b) := by ring
      rw [he, Int.add_mul_emod_self_left]
    rw [← h2, h3]
  · rw [if_neg h]
    push_neg at h
    have hneg : Int.tmod (-a) b = -Int.tmod a b := tmod_neg_left a b
    have h1 : Int.tmod (-a) b < b := Int.tmod_lt_of_pos (-a) hb
    have h0 : 0 ≤ b + Int.tmod a b := by omega
    have h1' : b + Int.tmod a b < b := by omega
    have h2 : (b + Int.tmod a b) % b = b + Int.tmod a b := Int.emod_eq_of_lt h0 h1'
    have h3 : (b + Int.tmod a b) % b = a % b := by
      conv_lhs => rw [hd]
      have he : b + (a - b * Int.tdiv a b) = a + b * (1 - Int.tdiv a b) := by ring
      rw [he, Int.add_mul_emod_self_left]
    rw [← h2, h3]

theorem jmod_nonneg (a b : ℤ) (hb : 0 < b) : 0 ≤ jmod a b := by
  rw [jmod_emod a b hb]
  exact Int.emod_nonneg a (ne_of_gt hb)

theorem jmod_lt (a b : ℤ) (hb : 0 < b) : jmod a b < b := by
  rw [jmod_emod a b hb]
  exact Int.emod_lt_of_pos a hb

/-! ### Claim C2: the GM/T key-agreement test vector -/

/-- Claim C2: `calculateSharedKey` on the GM/T test-set static/ephemeral
keys, `klen = 16`, both identifiers `"1234567812345678"`, `isRecipient =
false`, returns exactly the 16 bytes `6C89347354DE2484C60B4AB1FDE4C6E5`. -/
theorem calculateSharedKey_gmt_vector :
    calculateSharedKeySM2 kxPrivA kxEphPrivA kxPubA kxEphPubA kxPubB kxEphPubB
      16 false kxId kxId = some kxExpected := by decide

/-! ### Claim C8: hex rejection -/

theorem hexToArrayGo_length : ∀ l : List Char, (hexToArrayGo l).length = l.length / 2
  | [] => by simp [hexToArrayGo]
  | [c] => by simp [hexToArrayGo]
  | c1 :: c2 :: rest => by
    have ih := hexToArrayGo_length rest
    simp [hexToArrayGo, ih]
    omega

theorem leftPad_length (s : List Char) (num : ℕ) : (leftPad s num).length = max s.length num := by
  unfold leftPad
  split
  · omega
  · simp
    omega

/-- Claim C8 (counterexample): the claim says every string that is not an
even-length sequence of hex digits is rejected by both conversions; but
`hexToBytes "1g"` accepts the invalid pair (JavaScript `parseInt` parses the
prefix `"1"`) and returns `[0x01]`, and `hexToArray "zz"` returns `[0x00]`
without any error. -/
theorem hex_invalid_accepted :
    hexToBytes ['1', 'g'] = some [1] ∧ hexToArray ['z', 'z'] = [0] := by decide

/-- Claim C8 (amended): `hexToBytes` rejects every odd-length string (and
pairs whose `parseInt` yields NaN or a negative value, but not pairs whose
first character alone is a valid digit); `hexToArray` never fails, returning
`⌈len/2⌉` bytes for every input whatsoever. -/
theorem hex_rejection (s : List Char) :
    (s.length % 2 = 1 → hexToBytes s = none) ∧
    (hexToArray s).length = (s.length + 1) / 2 := by
  constructor
  · intro hodd
    unfold hexToBytes
    rw [if_pos hodd]
  · simp only [hexToArray]
    by_cases h : s.length % 2 ≠ 0
    · rw [if_pos h, hexToArrayGo_length, leftPad_length]
      omega
    · rw [if_neg h, hexToArrayGo_length]
      omega

theorem hex_rejection_witness :
    ['a'].length % 2 = 1 ∧ hexToBytes ['a'] = none ∧
    (hexToArray ['a']).length = (['a'].length + 1) / 2 :=
  ⟨by decide, (hex_rejection ['a']).1 (by decide), (hex_rejection ['a']).2⟩

/-! ### Claim C3: KDF correctness -/

theorem flatMap_bytesOfWord_length : ∀ V : List ℕ, (V.flatMap bytesOfWord).length = 4 * V.length
  | [] => by simp
  | w :: rest => by
    simp [flatMap_bytesOfWord_length rest, bytesOfWord]
    omega

theorem sm3Compress_length (V block : List ℕ) : (sm3Compress V block).length = 8 := by
  unfold sm3Compress
  obtain ⟨A, B, C, D, E, F, G, H⟩ := sm3Rounds (sm3ExpandGo 52 (wordsOfBytes block)) 64 0
    (V.getD 0 0, V.getD 1 0, V.getD 2 0, V.getD 3 0,
     V.getD 4 0, V.getD 5 0, V.getD 6 0, V.getD 7 0)
  rfl

theorem sm3Blocks_length : ∀ (fuel : ℕ) (V rest : List ℕ), V.length = 8 →
    (sm3Blocks fuel V rest).length = 8
  | 0, V, _ => fun h => by simpa [sm3Blocks] using h
  | _+1, V, [] => fun h => by simpa [sm3Blocks] using h
  | fuel+1, V, b :: rest2 => fun _ => by
    rw [show sm3Blocks (fuel+1) V (b :: rest2)
        = sm3Blocks fuel (sm3Compress V ((b :: rest2).take 64)) ((b :: rest2).drop 64) from rfl]
    exact sm3Blocks_length fuel _ _ (sm3Compress_length _ _)

theorem sm3_length (m : List ℕ) : (sm3 m).length = 32 := by
  simp only [sm3]
  rw [flatMap_bytesOfWord_length, sm3Blocks_length _ sm3IV _ (by rfl)]

theorem kdfBlocks_zero (z iv : List ℕ) (s : ℕ) : kdfBlocks z iv s 0 = [] := rfl

theorem kdfBlocks_succ (z iv : List ℕ) (s cnt : ℕ) :
    kdfBlocks z iv s (cnt+1)
      = sm3 (z ++ numberToBytesBE s 4 ++ iv) ++ kdfBlocks z iv (s+1) cnt := by
  unfold kdfBlocks
  rw [List.range'_succ]
  simp

theorem kdfBlocks_one (z iv : List ℕ) (s : ℕ) :
    kdfBlocks z iv s 1 = sm3 (z ++ numberToBytesBE s 4 ++ iv) := by
  rw [kdfBlocks_succ, kdfBlocks_zero, List.append_nil]

theorem kdfBlocks_length (z iv : List ℕ) (cnt : ℕ) :
    ∀ s, (kdfBlocks z iv s cnt).length = 32 * cnt := by
  induction cnt with
  | zero => intro s; rfl
  | succ n ih =>
    intro s
    rw [kdfBlocks_succ, List.length_append, sm3_length, ih]
    omega

theorem kdfBlocks_append (z iv : List ℕ) (s m n : ℕ) :
    kdfBlocks z iv s (m + n) = kdfBlocks z iv s m ++ kdfBlocks z iv (s + m) n := by
  unfold kdfBlocks
  rw [Nat.add_comm m n, ← List.range'_append_1, List.map_append, List.flatten_append]

theorem kdfGo_stream (z iv : List ℕ) :
    ∀ (k ct off : ℕ) (t : List ℕ), t.length = 32 → off ≤ 32 →
      t = sm3 (z ++ numberToBytesBE (ct - 1) 4 ++ iv) → 2 ≤ ct →
      kdfGo z iv k ct t off = (t.drop off ++ kdfBlocks z iv ct k).take k := by
  intro k
  induction k with
  | zero => intro ct off t _ _ _ _; simp [kdfGo]
  | succ k ih =>
    intro ct off t hlen hoff ht hct
    by_cases hfull : off = t.length
    · simp only [kdfGo]
      rw [if_pos hfull]
      have hdrop : t.drop off = [] := by rw [hfull]; exact List.drop_length t
      have ht2len : (sm3 (z ++ numberToBytesBE ct 4 ++ iv)).length = 32 := sm3_length _
      obtain ⟨b, t2', hb⟩ : ∃ b t2', sm3 (z ++ numberToBytesBE ct 4 ++ iv) = b :: t2' := by
        cases h2 : sm3 (z ++ numberToBytesBE ct 4 ++ iv) with
        | nil => rw [h2] at ht2len; simp at ht2len
        | cons b t2' => exact ⟨b, t2', rfl⟩
      have hih := ih (ct+1) 1 (sm3 (z ++ numberToBytesBE ct 4 ++ iv)) ht2len (by omega)
        (by rw [Nat.add_sub_cancel]) (by omega)
      rw [hdrop, List.nil_append, kdfBlocks_succ, hih, hb]
      simp
    · simp only [kdfGo]
      rw [if_neg hfull]
      have hofflt : off < t.length := by omega
      have hih := ih ct (off+1) t hlen (by omega) ht hct
      rw [hih, List.drop_eq_getElem_cons hofflt, List.getD_eq_getElem t 0 hofflt]
      simp only [List.cons_append, List.take_succ_cons]
      congr 1
      have hsplit : kdfBlocks z iv ct (k+1) = kdfBlocks z iv ct k ++ kdfBlocks z iv (ct+k) 1 :=
        kdfBlocks_append z iv ct k 1
      have hlen2 : k ≤ (t.drop (off+1) ++ kdfBlocks z iv ct k).length := by
        rw [List.length_append, kdfBlocks_length]
        omega
      rw [hsplit, ← List.append_assoc, List.take_append_of_le_length hlen2]

/-- Claim C3: for every byte string `Z`, every `keylen`, and every IV,
`kdf` returns the first `keylen` bytes of `H₁ ‖ H₂ ‖ …` where
`Hᵢ = SM3(Z ‖ ct(i) ‖ IV)` with a 4-byte big-endian counter starting at 1;
in particular `kdf Z 0` is empty. -/
theorem kdf_eq_kdfSpec (z : List ℕ) (keylen : ℕ) (iv : List ℕ) :
    kdf z keylen iv = kdfSpec z keylen iv ∧ kdf z 0 iv = [] := by
  constructor
  · unfold kdf
    rw [kdfGo_stream z iv keylen 2 0 (sm3 (z ++ numberToBytesBE 1 4 ++ iv)) (sm3_length _)
      (by omega) rfl (by omega)]
    rw [List.drop_zero]
    have h1 : sm3 (z ++ numberToBytesBE 1 4 ++ iv) ++ kdfBlocks z iv 2 keylen
        = kdfBlocks z iv 1 (keylen + 1) := by
      rw [show keylen + 1 = 1 + keylen from by omega, kdfBlocks_append, kdfBlocks_one]
    rw [h1]
    have h2 : ∀ cnt, kdfBlocks z iv 1 cnt
        = ((List.range cnt).map (fun i => sm3 (z ++ numberToBytesBE (i+1) 4 ++ iv))).flatten := by
      intro cnt
      unfold kdfBlocks
      rw [List.range'_eq_map_range, List.map_map]
      congr 1
      refine List.map_congr_left (fun a _ => ?_)
      simp [Nat.add_comm]
    unfold kdfSpec
    rw [← h2]
    rw [show keylen + 1 = (keylen + 31) / 32 + (keylen + 1 - (keylen + 31) / 32) from by omega]
    rw [kdfBlocks_append]
    rw [List.take_append_of_le_length (by rw [kdfBlocks_length]; omega)]
  · rfl

/-! ### Claim C4: square root on the SM2 field -/

theorem jmod_intCast (x : ℤ) (m : ℕ) (hm : 0 < m) :
    ((jmod x (m : ℤ) : ℤ) : ZMod m) = (x : ZMod m) := by
  rw [jmod_emod x _ (by exact_mod_cast hm)]
  exact ZMod.intCast_mod x m

theorem powLadder_lt (M : ℤ) (hM : 0 < M) :
    ∀ (fuel : ℕ) (res num : ℤ) (power : ℕ), 0 ≤ res → res < M →
      0 ≤ powLadderGo (fun t => jmod t M) fuel res num power ∧
      powLadderGo (fun t => jmod t M) fuel res num power < M := by
  intro fuel
  induction fuel with
  | zero => intro res num power h0 h1; exact ⟨h0, h1⟩
  | succ fuel ih =>
    intro res num power h0 h1
    simp only [powLadderGo]
    by_cases hp : power = 0
    · rw [if_pos hp]; exact ⟨h0, h1⟩
    · rw [if_neg hp]
      by_cases hodd : power % 2 = 1
      · rw [if_pos hodd]
        exact ih _ _ _ (jmod_nonneg _ _ hM) (jmod_lt _ _ hM)
      · rw [if_neg hodd]
        exact ih _ _ _ h0 h1

theorem powLadder_cast (m : ℕ) (hm : 0 < m) :
    ∀ (fuel : ℕ) (power : ℕ) (res num : ℤ), power < 2 ^ fuel →
      ((powLadderGo (fun t => jmod t (m : ℤ)) fuel res num power : ℤ) : ZMod m)
        = (res : ZMod m) * (num : ZMod m) ^ power := by
  intro fuel
  induction fuel with
  | zero =>
    intro power res num hp
    interval_cases power
    simp [powLadderGo]
  | succ fuel ih =>
    intro power res num hp
    by_cases hp0 : power = 0
    · subst hp0; simp [powLadderGo]
    · have hstep : powLadderGo (fun t => jmod t (m : ℤ)) (fuel+1) res num power
          = powLadderGo (fun t => jmod t (m : ℤ)) fuel
            (if power % 2 = 1 then jmod (res * num) (m : ℤ) else res)
            (jmod (num * num) (m : ℤ)) (power / 2) := by
        simp only [powLadderGo]
        rw [if_neg hp0]
      have hp2 : power / 2 < 2 ^ fuel := by
        have h2 : power < 2 ^ fuel * 2 := by simpa [pow_succ] using hp
        exact Nat.div_lt_of_lt_mul (by omega)
      rw [hstep]
      by_cases hodd : power % 2 = 1
      · rw [if_pos hodd, ih (power / 2) _ _ hp2, jmod_intCast _ _ hm, jmod_intCast _ _ hm]
        push_cast
        have hk : 2 * (power / 2) + 1 = power := by omega
        calc (res : ZMod m) * num * ((num : ZMod m) * num) ^ (power / 2)
            = (res : ZMod m) * (num * (num ^ 2) ^ (power / 2)) := by ring
          _ = (res : ZMod m) * num ^ power := by
              rw [← pow_mul, ← pow_succ', hk]
      · rw [if_neg hodd, ih (power / 2) _ _ hp2, jmod_intCast _ _ hm]
        push_cast
        have hk : 2 * (power / 2) = power := by omega
        calc (res : ZMod m) * ((num : ZMod m) * num) ^ (power / 2)
            = (res : ZMod m) * ((num ^ 2) ^ (power / 2)) := by ring
          _ = (res : ZMod m) * num ^ power := by rw [← pow_mul, hk]

theorem FpPow_cast (m : ℕ) (hm : 0 < m) (num : ℤ) (power : ℕ) :
    ((FpPow (m : ℤ) num power : ℤ) : ZMod m) = (num : ZMod m) ^ power := by
  unfold FpPow
  by_cases h0 : power = 0
  · rw [if_pos h0, h0]; simp
  · rw [if_neg h0]
    by_cases h1 : power = 1
    · rw [if_pos h1, h1]; simp
    · rw [if_neg h1]
      have hfuel : power < 2 ^ (power + 1) :=
        lt_trans (Nat.lt_pow_self one_lt_two power) (Nat.pow_lt_pow_succ one_lt_two)
      rw [powLadder_cast m hm (power + 1) power 1 num hfuel]
      simp

theorem FpPow_range (M : ℤ) (hM : 2 ≤ M) (num : ℤ) (power : ℕ) (hp1 : power ≠ 1) :
    0 ≤ FpPow M num power ∧ FpPow M num power < M := by
  unfold FpPow
  by_cases h0 : power = 0
  · rw [if_pos h0]; omega
  · rw [if_neg h0, if_neg hp1]
    exact powLadder_lt M (by omega) (power + 1) 1 num power (by omega) (by omega)

/-- Claim C4: on the SM2 field (`p ≡ 3 (mod 4)`), the square-root operation
computes `r = n^((p+1)/4) mod p`, returns it exactly when `r·r ≡ n (mod p)`,
and fails exactly when `n` has no square root modulo `p`. -/
theorem FpSqrt_sm2P (n : ℤ) (h0 : 0 ≤ n) (hn : n < (sm2P : ℤ)) :
    (∀ r : ℤ, FpSqrt (sm2P : ℤ) n = some r →
      0 ≤ r ∧ r < (sm2P : ℤ) ∧ (r : ZMod sm2P) = (n : ZMod sm2P) ^ ((sm2P + 1) / 4) ∧
      jmod (r * r) (sm2P : ℤ) = n) ∧
    (FpSqrt (sm2P : ℤ) n = none ↔ ¬∃ s : ℤ, jmod (s * s) (sm2P : ℤ) = n) := by
  haveI : Fact (Nat.Prime sm2P) := ⟨sm2P_prime⟩
  have hmpos : 0 < sm2P := by decide
  have hble : (2 : ℤ) ≤ (sm2P : ℤ) := by decide
  have hdisp : FpSqrt (sm2P : ℤ) n = sqrt3mod4 (sm2P : ℤ) n := by
    unfold FpSqrt
    rw [if_pos (by decide)]
  have hq : (((sm2P : ℤ) + 1) / 4).toNat = (sm2P + 1) / 4 := by decide
  have hQ4 : 4 * ((sm2P + 1) / 4) = sm2P + 1 := by decide
  have hQ1 : (sm2P + 1) / 4 ≠ 1 := by decide
  set Q : ℕ := (sm2P + 1) / 4 with hQdef
  have hrange0 := FpPow_range (sm2P : ℤ) hble n Q hQ1
  have hcast0 := FpPow_cast sm2P hmpos n Q
  set root : ℤ := FpPow (sm2P : ℤ) n Q with hroot
  have hform : sqrt3mod4 (sm2P : ℤ) n
      = if jmod (root * root) (sm2P : ℤ) = n then some root else none := by
    rw [hroot]
    simp only [sqrt3mod4, hq]
  have hrange : 0 ≤ root ∧ root < (sm2P : ℤ) := hrange0
  have hcast : (root : ZMod sm2P) = (n : ZMod sm2P) ^ Q := hcast0
  -- if n has a square root mod p, the verification check succeeds
  have hmain : (∃ s : ℤ, jmod (s * s) (sm2P : ℤ) = n) → jmod (root * root) (sm2P : ℤ) = n := by
    rintro ⟨s, hs⟩
    have hscast : ((s : ZMod sm2P)) * (s : ZMod sm2P) = (n : ZMod sm2P) := by
      have := congrArg (fun x : ℤ => (x : ZMod sm2P)) hs
      simpa [jmod_intCast _ _ hmpos] using this
    have hsq : ((n : ZMod sm2P) ^ Q) * ((n : ZMod sm2P) ^ Q) = (n : ZMod sm2P) := by
      by_cases hz : (s : ZMod sm2P) = 0
      · have hn0 : (n : ZMod sm2P) = 0 := by rw [← hscast, hz, mul_zero]
        rw [hn0]
        rw [zero_pow (by omega : Q ≠ 0), mul_zero]
      · have hfer : (s : ZMod sm2P) ^ (sm2P - 1) = 1 := ZMod.pow_card_sub_one_eq_one hz
        have h4Q : (s : ZMod sm2P) ^ (4 * Q) = (s : ZMod sm2P) ^ (sm2P + 1) := by rw [hQ4]
        calc (n : ZMod sm2P) ^ Q * (n : ZMod sm2P) ^ Q
            = ((s : ZMod sm2P) * s) ^ Q * ((s : ZMod sm2P) * s) ^ Q := by rw [hscast]
          _ = (s : ZMod sm2P) ^ (4 * Q) := by ring
          _ = (s : ZMod sm2P) ^ (sm2P + 1) := h4Q
          _ = (s : ZMod sm2P) ^ (sm2P - 1) * ((s : ZMod sm2P) * s) := by
              rw [show sm2P + 1 = (sm2P - 1) + 2 from by omega, pow_add]
              ring
          _ = (n : ZMod sm2P) := by rw [hfer, one_mul, hscast]
    have hcastgoal : ((root * root : ℤ) : ZMod sm2P) = ((n : ℤ) : ZMod sm2P) := by
      push_cast
      rw [hcast]
      exact_mod_cast hsq
    have hmodeq : (root * root) % (sm2P : ℤ) = n % (sm2P : ℤ) :=
      (ZMod.intCast_eq_intCast_iff' _ _ _).mp hcastgoal
    rw [jmod_emod _ _ (by omega), hmodeq]
    exact Int.emod_eq_of_lt h0 hn
  constructor
  · intro r hr
    rw [hdisp, hform] at hr
    by_cases hc : jmod (root * root) (sm2P : ℤ) = n
    · rw [if_pos hc] at hr
      have hrr : root = r := Option.some.inj hr
      subst hrr
      exact ⟨hrange.1, hrange.2, hcast, hc⟩
    · rw [if_neg hc] at hr
      cases hr
  · rw [hdisp, hform]
    constructor
    · intro hnone hex
      have := hmain hex
      rw [if_pos this] at hnone
      cases hnone
    · intro hnoex
      rw [if_neg (fun hc => hnoex ⟨root, hc⟩)]

theorem FpSqrt_sm2P_witness :
    (0 : ℤ) ≤ 4 ∧ (4 : ℤ) < (sm2P : ℤ) ∧
    (FpSqrt (sm2P : ℤ) 4 = none ↔ ¬∃ s : ℤ, jmod (s * s) (sm2P : ℤ) = 4) :=
  ⟨by decide, by decide, (FpSqrt_sm2P 4 (by decide) (by decide)).2⟩

/-! ### Claim C5: field-element invariant -/

theorem FpPow_range_any (M : ℤ) (hM : 2 ≤ M) (num : ℤ) (power : ℕ)
    (h0 : 0 ≤ num) (h1 : num < M) : 0 ≤ FpPow M num power ∧ FpPow M num power < M := by
  by_cases hp1 : power = 1
  · subst hp1
    unfold FpPow
    rw [if_neg (by omega), if_pos rfl]
    exact ⟨h0, h1⟩
  · exact FpPow_range M hM num power hp1

theorem invert_some_range (num M r : ℤ) (h : invert num M = some r) : 0 ≤ r ∧ r < M := by
  simp only [invert] at h
  split at h
  · cases h
  · next hguard =>
    push_neg at hguard
    have hM : 0 < M := by omega
    split at h
    · cases h
    · split at h
      · have := Option.some.inj h
        subst this
        exact ⟨jmod_nonneg _ _ hM, jmod_lt _ _ hM⟩
      · cases h

theorem tsLoop_some_range (P : ℤ) (hP : 0 < P) :
    ∀ (fuel : ℕ) (g x b : ℤ) (r : ℕ) (v : ℤ), 0 ≤ x → x < P →
      tsLoop P fuel g x b r = some v → 0 ≤ v ∧ v < P := by
  intro fuel
  induction fuel with
  | zero => intro g x b r v _ _ h; cases h
  | succ fuel ih =>
    intro g x b r v hx0 hx1 h
    simp only [tsLoop] at h
    by_cases hb1 : b = 1
    · rw [if_pos hb1] at h
      have : x = v := Option.some.inj h
      subst this
      exact ⟨hx0, hx1⟩
    · rw [if_neg hb1] at h
      by_cases hb0 : b = 0
      · rw [if_pos hb0] at h
        have : (0 : ℤ) = v := Option.some.inj h
        subst this
        exact ⟨le_refl 0, hP⟩
      · rw [if_neg hb0] at h
        exact ih _ _ _ _ _ (jmod_nonneg _ _ hP) (jmod_lt _ _ hP) h

theorem sqrt3mod4_some_range (P : ℤ) (hP : 2 ≤ P) (n r : ℤ)
    (h0 : 0 ≤ n) (h1 : n < P) (h : sqrt3mod4 P n = some r) : 0 ≤ r ∧ r < P := by
  simp only [sqrt3mod4] at h
  split at h
  · have := Option.some.inj h
    subst this
    exact FpPow_range_any P hP n _ h0 h1
  · cases h

theorem sqrt5mod8_some_range (P : ℤ) (hP : 2 ≤ P) (n r : ℤ)
    (h : sqrt5mod8 P n = some r) : 0 ≤ r ∧ r < P := by
  simp only [sqrt5mod8] at h
  split at h
  · have := Option.some.inj h
    subst this
    exact ⟨jmod_nonneg _ _ (by omega), jmod_lt _ _ (by omega)⟩
  · cases h

theorem tonelliShanks_some_range (P : ℤ) (hP : 2 ≤ P) (n r : ℤ)
    (h0 : 0 ≤ n) (h1 : n < P) (h : tonelliShanks P n = some r) : 0 ≤ r ∧ r < P := by
  simp only [tonelliShanks] at h
  split at h
  · split at h
    · have := Option.some.inj h
      subst this
      exact FpPow_range_any P hP n _ h0 h1
    · cases h
  · split at h
    · cases h
    · have hx := FpPow_range_any P hP n ((tsQSGo (P-1).toNat (P-1).toNat 0).1 + 1) h0 h1
      exact tsLoop_some_range P (by omega) _ _ _ _ _ _ (FpPow_range_any P hP n _ h0 h1).1
        (FpPow_range_any P hP n _ h0 h1).2 h

theorem FpSqrt_some_range (P : ℤ) (hP : 2 ≤ P) (n r : ℤ)
    (h0 : 0 ≤ n) (h1 : n < P) (h : FpSqrt P n = some r) : 0 ≤ r ∧ r < P := by
  unfold FpSqrt at h
  split at h
  · exact sqrt3mod4_some_range P hP n r h0 h1 h
  · split at h
    · exact sqrt5mod8_some_range P hP n r h
    · exact tonelliShanks_some_range P hP n r h0 h1 h

/-- Claim C5: for every prime `ORDER` and the field `Field(ORDER)`, the
operations `create`, `add`, `sub`, `mul`, `sqr`, `neg`, `inv`, `pow`, `div`
and `sqrt`, applied to arguments in `[0, ORDER)`, return values in
`[0, ORDER)`. -/
theorem Field_ops_range (ORDER : ℕ) (hp : Nat.Prime ORDER) :
    (∀ x : ℤ, 0 ≤ fieldCreate (ORDER : ℤ) x ∧ fieldCreate (ORDER : ℤ) x < ORDER) ∧
    (∀ a b : ℤ, 0 ≤ fieldAdd (ORDER : ℤ) a b ∧ fieldAdd (ORDER : ℤ) a b < ORDER) ∧
    (∀ a b : ℤ, 0 ≤ fieldSub (ORDER : ℤ) a b ∧ fieldSub (ORDER : ℤ) a b < ORDER) ∧
    (∀ a b : ℤ, 0 ≤ fieldMul (ORDER : ℤ) a b ∧ fieldMul (ORDER : ℤ) a b < ORDER) ∧
    (∀ a : ℤ, 0 ≤ fieldSqr (ORDER : ℤ) a ∧ fieldSqr (ORDER : ℤ) a < ORDER) ∧
    (∀ a : ℤ, 0 ≤ fieldNeg (ORDER : ℤ) a ∧ fieldNeg (ORDER : ℤ) a < ORDER) ∧
    (∀ a r : ℤ, fieldInv (ORDER : ℤ) a = some r → 0 ≤ r ∧ r < ORDER) ∧
    (∀ (num : ℤ) (power : ℕ), 0 ≤ num → num < ORDER →
      0 ≤ FpPow (ORDER : ℤ) num power ∧ FpPow (ORDER : ℤ) num power < ORDER) ∧
    (∀ a b r : ℤ, fieldDiv (ORDER : ℤ) a b = some r → 0 ≤ r ∧ r < ORDER) ∧
    (∀ n r : ℤ, 0 ≤ n → n < ORDER → FpSqrt (ORDER : ℤ) n = some r →
      0 ≤ r ∧ r < ORDER) := by
  have h2 : (2 : ℤ) ≤ (ORDER : ℤ) := by exact_mod_cast hp.two_le
  have h0 : (0 : ℤ) < (ORDER : ℤ) := by omega
  refine ⟨fun x => ⟨jmod_nonneg _ _ h0, jmod_lt _ _ h0⟩,
    fun a b => ⟨jmod_nonneg _ _ h0, jmod_lt _ _ h0⟩,
    fun a b => ⟨jmod_nonneg _ _ h0, jmod_lt _ _ h0⟩,
    fun a b => ⟨jmod_nonneg _ _ h0, jmod_lt _ _ h0⟩,
    fun a => ⟨jmod_nonneg _ _ h0, jmod_lt _ _ h0⟩,
    fun a => ⟨jmod_nonneg _ _ h0, jmod_lt _ _ h0⟩,
    fun a r h => invert_some_range a _ r h,
    fun num power hn0 hn1 => FpPow_range_any _ h2 num power hn0 hn1,
    ?_,
    fun n r hn0 hn1 h => FpSqrt_some_range _ h2 n r hn0 hn1 h⟩
  intro a b r h
  unfold fieldDiv at h
  cases hi : invert b (ORDER : ℤ) with
  | none => rw [hi] at h; cases h
  | some i =>
    rw [hi] at h
    simp only at h
    have : jmod (a * i) (ORDER : ℤ) = r := Option.some.inj h
    subst this
    exact ⟨jmod_nonneg _ _ h0, jmod_lt _ _ h0⟩

theorem Field_ops_range_witness :
    Nat.Prime 7 ∧ 0 ≤ fieldAdd (7 : ℤ) 3 5 ∧ fieldAdd (7 : ℤ) 3 5 < 7 :=
  ⟨by norm_num, ((Field_ops_range 7 (by norm_num)).2.1 3 5).1,
    ((Field_ops_range 7 (by norm_num)).2.1 3 5).2⟩

/-! ### Correctness of `invert` (extended Euclid) -/

theorem invertGo_spec (M : ℤ) (n0 : ℤ) :
    ∀ (fuel a b : ℕ) (x y u v : ℤ), a < fuel → 0 < b →
      x * n0 ≡ (b : ℤ) [ZMOD M] →
      u * n0 ≡ (a : ℤ) [ZMOD M] →
      ∃ xr, invertGo fuel a b x y u v = some (Nat.gcd a b, xr) ∧
        xr * n0 ≡ ((Nat.gcd a b : ℕ) : ℤ) [ZMOD M] := by
  intro fuel
  induction fuel with
  | zero => intro a b x y u v hfuel; omega
  | succ fuel ih =>
    intro a b x y u v hfuel hb hx hu
    by_cases ha : a = 0
    · subst ha
      refine ⟨x, ?_, ?_⟩
      · simp [invertGo, Nat.gcd_zero_left]
      · rw [Nat.gcd_zero_left]; exact hx
    · have hstep : invertGo (fuel+1) a b x y u v
          = invertGo fuel (b % a) a u v (x - u * ((b / a : ℕ) : ℤ)) (y - v * ((b / a : ℕ) : ℤ)) := by
        simp [invertGo, ha]
      have ha' : 0 < a := Nat.pos_of_ne_zero ha
      have hra : b % a < a := Nat.mod_lt _ ha'
      have hdm : (a : ℤ) * ((b / a : ℕ) : ℤ) + ((b % a : ℕ) : ℤ) = (b : ℤ) := by
        exact_mod_cast Nat.div_add_mod b a
      have hnew : (x - u * ((b / a : ℕ) : ℤ)) * n0 ≡ ((b % a : ℕ) : ℤ) [ZMOD M] := by
        have h1 : (x - u * ((b / a : ℕ) : ℤ)) * n0
            = x * n0 - ((b / a : ℕ) : ℤ) * (u * n0) := by ring
        rw [h1]
        have h2 : x * n0 - ((b / a : ℕ) : ℤ) * (u * n0)
            ≡ (b : ℤ) - ((b / a : ℕ) : ℤ) * (a : ℤ) [ZMOD M] :=
          Int.ModEq.sub hx (Int.ModEq.mul_left _ hu)
        have h3 : (b : ℤ) - ((b / a : ℕ) : ℤ) * (a : ℤ) = ((b % a : ℕ) : ℤ) := by
          rw [mul_comm]
          linarith [hdm]
        rw [h3] at h2
        exact h2
      obtain ⟨xr, heq, hmod⟩ := ih (b % a) a u v
        (x - u * ((b / a : ℕ) : ℤ)) (y - v * ((b / a : ℕ) : ℤ))
        (by omega) ha' hu hnew
      refine ⟨xr, ?_, ?_⟩
      · rw [hstep, heq, Nat.gcd_rec a b]
      · rw [Nat.gcd_rec a b]; exact hmod

theorem invert_correct (P : ℕ) (hp : Nat.Prime P) (num : ℤ) (hnd : ¬ ((P : ℤ) ∣ num)) :
    ∃ r, invert num (P : ℤ) = some r ∧ 0 ≤ r ∧ r < (P : ℤ) ∧
      (r : ZMod P) * (num : ZMod P) = 1 := by
  have hP0 : 0 < P := hp.pos
  have hM : (0 : ℤ) < (P : ℤ) := by exact_mod_cast hP0
  have hnum0 : num ≠ 0 := fun h => hnd (h ▸ dvd_zero _)
  have ha0cast : (((jmod num (P:ℤ)).toNat : ℕ) : ℤ) = jmod num (P:ℤ) :=
    Int.toNat_of_nonneg (jmod_nonneg _ _ hM)
  have hjm : jmod num (P:ℤ) = num % (P:ℤ) := jmod_emod _ _ hM
  have hPtoNat : ((P : ℤ)).toNat = P := Int.toNat_natCast P
  -- the gcd of the reduced input with P is 1
  have hgcd : Nat.gcd (jmod num (P:ℤ)).toNat P = 1 := by
    have hnd0 : ¬ (P ∣ (jmod num (P:ℤ)).toNat) := by
      intro hdvd
      apply hnd
      have h1 : ((P : ℕ) : ℤ) ∣ (((jmod num (P:ℤ)).toNat : ℕ) : ℤ) :=
        Int.natCast_dvd_natCast.mpr hdvd
      rw [ha0cast, hjm] at h1
      have h2 := Int.ediv_add_emod num (P:ℤ)
      have h3 : (P : ℤ) ∣ (P : ℤ) * (num / (P:ℤ)) := Dvd.intro _ rfl
      calc (P : ℤ) ∣ (P : ℤ) * (num / (P:ℤ)) + num % (P:ℤ) := dvd_add h3 h1
        _ = num := h2
    have hco : Nat.Coprime P (jmod num (P:ℤ)).toNat :=
      (Nat.Prime.coprime_iff_not_dvd hp).mpr hnd0
    exact Nat.coprime_comm.mp hco
  -- run the Euclid loop specification
  have hx0 : (0 : ℤ) * num ≡ ((P : ℕ) : ℤ) [ZMOD (P : ℤ)] := by
    simp [Int.ModEq]
  have hu0 : (1 : ℤ) * num ≡ (((jmod num (P:ℤ)).toNat : ℕ) : ℤ) [ZMOD (P : ℤ)] := by
    rw [ha0cast, hjm, one_mul]
    exact (Int.emod_emod_of_dvd num dvd_rfl).symm
  obtain ⟨xr, heq, hmod⟩ := invertGo_spec (P : ℤ) num
    ((jmod num (P:ℤ)).toNat + 1) (jmod num (P:ℤ)).toNat P 0 1 1 0
    (by omega) hP0 hx0 hu0
  refine ⟨jmod xr (P:ℤ), ?_, jmod_nonneg _ _ hM, jmod_lt _ _ hM, ?_⟩
  · simp only [invert]
    rw [if_neg (by push_neg; exact ⟨hnum0, by omega⟩)]
    rw [show ((P:ℤ)).toNat = P from hPtoNat, heq]
    simp [hgcd]
  · rw [jmod_intCast _ _ hP0]
    rw [hgcd] at hmod
    have hcast : ((xr * num : ℤ) : ZMod P) = ((1 : ℤ) : ZMod P) := by
      rw [ZMod.intCast_eq_intCast_iff]
      exact_mod_cast hmod
    push_cast at hcast
    exact hcast

/-! ### Claims C6 and C10: batch inversion -/

theorem zfilterProd_nil (P : ℕ) : zfilterProd P ([] : List ℤ) = 1 := rfl

theorem zfilterProd_cons_zero (P : ℕ) (l : List ℤ) :
    zfilterProd P (0 :: l) = zfilterProd P l := by
  simp [zfilterProd]

theorem zfilterProd_cons_ne (P : ℕ) (a : ℤ) (l : List ℤ) (ha : a ≠ 0) :
    zfilterProd P (a :: l) = (a : ZMod P) * zfilterProd P l := by
  simp [zfilterProd, List.filter_cons, ha]

theorem zfilterProd_append (P : ℕ) (l1 l2 : List ℤ) :
    zfilterProd P (l1 ++ l2) = zfilterProd P l1 * zfilterProd P l2 := by
  simp [zfilterProd]

theorem zfilterProd_reverse (P : ℕ) (l : List ℤ) :
    zfilterProd P l.reverse = zfilterProd P l := by
  unfold zfilterProd
  exact List.Perm.prod_eq (List.Perm.map _ (List.Perm.filter _ (List.reverse_perm l)))

theorem intCast_zmod_ne_zero (P : ℕ) (a : ℤ) (h0 : 0 ≤ a) (h1 : a < (P:ℤ)) (ha : a ≠ 0) :
    (a : ZMod P) ≠ 0 := by
  intro hc
  have hdvd : ((P : ℕ) : ℤ) ∣ a := (ZMod.intCast_zmod_eq_zero_iff_dvd a P).mp hc
  have h2 : a % (P:ℤ) = 0 := Int.emod_eq_zero_of_dvd hdvd
  rw [Int.emod_eq_of_lt h0 h1] at h2
  exact ha h2

theorem intCast_range_inj (P : ℕ) (x y : ℤ) (hx0 : 0 ≤ x) (hx1 : x < (P:ℤ))
    (hy0 : 0 ≤ y) (hy1 : y < (P:ℤ)) (h : (x : ZMod P) = (y : ZMod P)) : x = y := by
  have h2 := (ZMod.intCast_eq_intCast_iff' x y P).mp h
  rw [Int.emod_eq_of_lt hx0 hx1, Int.emod_eq_of_lt hy0 hy1] at h2
  exact h2

theorem batchFwd_spec (P : ℕ) (hP : 0 < P) :
    ∀ (nums : List ℤ) (acc : ℤ),
      (batchFwd (P:ℤ) nums acc).1.length = nums.length ∧
      (((batchFwd (P:ℤ) nums acc).2 : ℤ) : ZMod P) = (acc : ZMod P) * zfilterProd P nums ∧
      ∀ (i : ℕ) (a : ℤ), nums[i]? = some a →
        (a = 0 → (batchFwd (P:ℤ) nums acc).1[i]? = some none) ∧
        (a ≠ 0 → ∃ t, (batchFwd (P:ℤ) nums acc).1[i]? = some (some t) ∧
          (t : ZMod P) = (acc : ZMod P) * zfilterProd P (nums.take i)) := by
  intro nums
  induction nums with
  | nil =>
    intro acc
    refine ⟨rfl, by simp [batchFwd, zfilterProd], ?_⟩
    intro i a h
    simp at h
  | cons a0 rest ih =>
    intro acc
    by_cases ha : a0 = 0
    · subst ha
      have hunf : batchFwd (P:ℤ) (0 :: rest) acc
          = (none :: (batchFwd (P:ℤ) rest acc).1, (batchFwd (P:ℤ) rest acc).2) := by
        simp [batchFwd]
      refine ⟨?_, ?_, ?_⟩
      · rw [hunf]
        simp [(ih acc).1]
      · rw [hunf]
        rw [show ((none :: (batchFwd (P:ℤ) rest acc).1, (batchFwd (P:ℤ) rest acc).2) :
            List (Option ℤ) × ℤ).2 = (batchFwd (P:ℤ) rest acc).2 from rfl]
        rw [(ih acc).2.1, zfilterProd_cons_zero]
      · intro i a h
        cases i with
        | zero =>
          rw [List.getElem?_cons_zero] at h
          have h0a : (0 : ℤ) = a := Option.some.inj h
          constructor
          · intro _
            rw [hunf]
            simp
          · intro hne
            exact absurd h0a.symm hne
        | succ i =>
          rw [List.getElem?_cons_succ] at h
          have hrec := (ih acc).2.2 i a h
          constructor
          · intro h0
            rw [hunf]
            simp only [List.getElem?_cons_succ]
            exact hrec.1 h0
          · intro hne
            obtain ⟨t, ht1, ht2⟩ := hrec.2 hne
            refine ⟨t, ?_, ?_⟩
            · rw [hunf]
              simp only [List.getElem?_cons_succ]
              exact ht1
            · rw [show ((0:ℤ) :: rest).take (i+1) = (0:ℤ) :: rest.take i from rfl,
                zfilterProd_cons_zero]
              exact ht2
    · have hunf : batchFwd (P:ℤ) (a0 :: rest) acc
          = (some acc :: (batchFwd (P:ℤ) rest (jmod (acc * a0) (P:ℤ))).1,
             (batchFwd (P:ℤ) rest (jmod (acc * a0) (P:ℤ))).2) := by
        simp [batchFwd, ha]
      have hcastacc : ((jmod (acc * a0) (P:ℤ) : ℤ) : ZMod P)
          = (acc : ZMod P) * (a0 : ZMod P) := by
        rw [jmod_intCast _ _ hP]
        push_cast
        ring
      refine ⟨?_, ?_, ?_⟩
      · rw [hunf]
        simp [(ih (jmod (acc * a0) (P:ℤ))).1]
      · rw [hunf]
        rw [show ((some acc :: (batchFwd (P:ℤ) rest (jmod (acc * a0) (P:ℤ))).1,
            (batchFwd (P:ℤ) rest (jmod (acc * a0) (P:ℤ))).2) :
            List (Option ℤ) × ℤ).2 = (batchFwd (P:ℤ) rest (jmod (acc * a0) (P:ℤ))).2 from rfl]
        rw [(ih (jmod (acc * a0) (P:ℤ))).2.1, hcastacc, zfilterProd_cons_ne P a0 rest ha]
        ring
      · intro i a h
        cases i with
        | zero =>
          rw [List.getElem?_cons_zero] at h
          have h0a : a0 = a := Option.some.inj h
          constructor
          · intro h0
            exact absurd (h0a ▸ h0) ha
          · intro _
            refine ⟨acc, ?_, ?_⟩
            · rw [hunf]
              simp
            · rw [show ((a0 : ℤ) :: rest).take 0 = [] from rfl, zfilterProd_nil, mul_one]
        | succ i =>
          rw [List.getElem?_cons_succ] at h
          have hrec := (ih (jmod (acc * a0) (P:ℤ))).2.2 i a h
          constructor
          · intro h0
            rw [hunf]
            simp only [List.getElem?_cons_succ]
            exact hrec.1 h0
          · intro hne
            obtain ⟨t, ht1, ht2⟩ := hrec.2 hne
            refine ⟨t, ?_, ?_⟩
            · rw [hunf]
              simp only [List.getElem?_cons_succ]
              exact ht1
            · rw [show (a0 :: rest).take (i+1) = a0 :: rest.take i from rfl,
                zfilterProd_cons_ne P a0 _ ha, ht2, hcastacc]
              ring

theorem batchBwd_spec (P : ℕ) (hP : 0 < P) :
    ∀ (rn : List ℤ) (rt : List (Option ℤ)) (acc : ℤ), rn.length = rt.length →
      (batchBwd (P:ℤ) rn rt acc).length = rt.length ∧
      ∀ (i : ℕ) (a : ℤ) (t : Option ℤ), rn[i]? = some a → rt[i]? = some t →
        (a = 0 → (batchBwd (P:ℤ) rn rt acc)[i]? = some t) ∧
        (a ≠ 0 →
          (t = none → (batchBwd (P:ℤ) rn rt acc)[i]? = some none) ∧
          ∀ w, t = some w → ∃ v, (batchBwd (P:ℤ) rn rt acc)[i]? = some (some v) ∧
            0 ≤ v ∧ v < (P:ℤ) ∧
            (v : ZMod P) = (acc : ZMod P) * zfilterProd P (rn.take i) * (w : ZMod P)) := by
  have hPZ : (0:ℤ) < (P:ℤ) := by exact_mod_cast hP
  intro rn
  induction rn with
  | nil =>
    intro rt acc _
    refine ⟨by simp [batchBwd], ?_⟩
    intro i a t h _
    simp at h
  | cons a0 rn' ih =>
    intro rt acc hlen
    cases rt with
    | nil => simp at hlen
    | cons t0 rt' =>
      have hlen' : rn'.length = rt'.length := by simpa using hlen
      by_cases ha : a0 = 0
      · subst ha
        have hunf : batchBwd (P:ℤ) (0 :: rn') (t0 :: rt') acc
            = t0 :: batchBwd (P:ℤ) rn' rt' acc := by
          simp [batchBwd]
        refine ⟨by rw [hunf]; simp [(ih rt' acc hlen').1], ?_⟩
        intro i a t hm ht
        cases i with
        | zero =>
          rw [List.getElem?_cons_zero] at hm ht
          have ha' : (0:ℤ) = a := Option.some.inj hm
          have ht' : t0 = t := Option.some.inj ht
          constructor
          · intro _
            rw [hunf, ht']
            simp
          · intro hne
            exact absurd ha'.symm hne
        | succ i =>
          rw [List.getElem?_cons_succ] at hm ht
          have hrec := (ih rt' acc hlen').2 i a t hm ht
          rw [hunf]
          simp only [List.getElem?_cons_succ]
          constructor
          · exact hrec.1
          · intro hne
            refine ⟨(hrec.2 hne).1, ?_⟩
            intro w hw
            obtain ⟨v, h1, h2, h3, h4⟩ := (hrec.2 hne).2 w hw
            refine ⟨v, h1, h2, h3, ?_⟩
            rw [show ((0:ℤ) :: rn').take (i+1) = (0:ℤ) :: rn'.take i from rfl,
              zfilterProd_cons_zero]
            exact h4
      · have hunf : batchBwd (P:ℤ) (a0 :: rn') (t0 :: rt') acc
            = (t0.map fun w => jmod (acc * w) (P:ℤ)) ::
              batchBwd (P:ℤ) rn' rt' (jmod (acc * a0) (P:ℤ)) := by
          simp [batchBwd, ha]
        have hcastacc : ((jmod (acc * a0) (P:ℤ) : ℤ) : ZMod P)
            = (acc : ZMod P) * (a0 : ZMod P) := by
          rw [jmod_intCast _ _ hP]
          push_cast
          ring
        refine ⟨by rw [hunf]; simp [(ih rt' _ hlen').1], ?_⟩
        intro i a t hm ht
        cases i with
        | zero =>
          rw [List.getElem?_cons_zero] at hm ht
          have ha' : a0 = a := Option.some.inj hm
          have ht' : t0 = t := Option.some.inj ht
          constructor
          · intro h0
            exact absurd (ha' ▸ h0) ha
          · intro _
            constructor
            · intro htn
              rw [hunf, ht', htn]
              simp
            · intro w hw
              refine ⟨jmod (acc * w) (P:ℤ), ?_, jmod_nonneg _ _ hPZ, jmod_lt _ _ hPZ, ?_⟩
              · rw [hunf, ht', hw]
                simp
              · rw [jmod_intCast _ _ hP]
                push_cast
                rw [show ((a0 : ℤ) :: rn').take 0 = [] from rfl, zfilterProd_nil]
                ring
        | succ i =>
          rw [List.getElem?_cons_succ] at hm ht
          have hrec := (ih rt' (jmod (acc * a0) (P:ℤ)) hlen').2 i a t hm ht
          rw [hunf]
          simp only [List.getElem?_cons_succ]
          constructor
          · exact hrec.1
          · intro hne
            refine ⟨(hrec.2 hne).1, ?_⟩
            intro w hw
            obtain ⟨v, h1, h2, h3, h4⟩ := (hrec.2 hne).2 w hw
            refine ⟨v, h1, h2, h3, ?_⟩
            rw [show (a0 :: rn').take (i+1) = a0 :: rn'.take i from rfl,
              zfilterProd_cons_ne P a0 _ ha, h4, hcastacc]
            ring

theorem int_not_dvd_of_range (P : ℕ) (a : ℤ) (h0 : 0 ≤ a) (h1 : a < (P:ℤ)) (ha : a ≠ 0) :
    ¬ ((P : ℤ) ∣ a) := by
  intro hdvd
  have h2 : a % (P:ℤ) = 0 := Int.emod_eq_zero_of_dvd hdvd
  rw [Int.emod_eq_of_lt h0 h1] at h2
  exact ha h2

/-- The combined behaviour of `FpInvertBatch` on a list of valid field
elements over a prime field: it always succeeds, zero positions stay
undefined (`none`), and every nonzero position receives exactly the value of
`invert` on that element. -/
theorem FpInvertBatch_spec (P : ℕ) (hp : Nat.Prime P) (nums : List ℤ)
    (hval : ∀ a ∈ nums, 0 ≤ a ∧ a < (P:ℤ)) :
    ∃ tmp, FpInvertBatch (P:ℤ) nums = some tmp ∧ tmp.length = nums.length ∧
      ∀ (i : ℕ) (a : ℤ), nums[i]? = some a →
        (a = 0 → tmp[i]? = some none) ∧
        (a ≠ 0 → ∃ v, tmp[i]? = some (some v) ∧ invert a (P:ℤ) = some v) := by
  haveI : Fact (Nat.Prime P) := ⟨hp⟩
  have hP0 : 0 < P := hp.pos
  have hPZ : (0:ℤ) < (P:ℤ) := by exact_mod_cast hP0
  obtain ⟨hF1, hF2, hF3⟩ := batchFwd_spec P hP0 nums 1
  have hprodne : zfilterProd P nums ≠ 0 := by
    unfold zfilterProd
    apply List.prod_ne_zero
    intro hz
    rw [List.mem_map] at hz
    obtain ⟨b, hbmem, hbz⟩ := hz
    rw [List.mem_filter] at hbmem
    obtain ⟨hbin, hbne⟩ := hbmem
    have hbne' : b ≠ 0 := by simpa using hbne
    exact intCast_zmod_ne_zero P b (hval b hbin).1 (hval b hbin).2 hbne' hbz
  have hlastne : ¬ ((P:ℤ) ∣ (batchFwd (P:ℤ) nums 1).2) := by
    intro hdvd
    have hz : (((batchFwd (P:ℤ) nums 1).2 : ℤ) : ZMod P) = 0 :=
      (ZMod.intCast_zmod_eq_zero_iff_dvd _ P).mpr hdvd
    rw [hF2] at hz
    rw [Int.cast_one, one_mul] at hz
    exact hprodne hz
  obtain ⟨r, hr1, hr2, hr3, hr4⟩ := invert_correct P hp _ hlastne
  obtain ⟨hB1, hB2⟩ := batchBwd_spec P hP0 nums.reverse (batchFwd (P:ℤ) nums 1).1.reverse r
    (by simp [hF1])
  refine ⟨(batchBwd (P:ℤ) nums.reverse (batchFwd (P:ℤ) nums 1).1.reverse r).reverse,
    ?_, ?_, ?_⟩
  · simp only [FpInvertBatch]
    rw [hr1]
  · rw [List.length_reverse, hB1, List.length_reverse, hF1]
  · intro i a hia
    have hi : i < nums.length := (List.getElem?_eq_some_iff.mp hia).1
    have hgeti : nums[i] = a := (List.getElem?_eq_some_iff.mp hia).2
    have hBlen : (batchBwd (P:ℤ) nums.reverse (batchFwd (P:ℤ) nums 1).1.reverse r).length
        = nums.length := by
      rw [hB1, List.length_reverse, hF1]
    -- reverse-index bookkeeping
    have hrevout : (batchBwd (P:ℤ) nums.reverse (batchFwd (P:ℤ) nums 1).1.reverse r).reverse[i]?
        = (batchBwd (P:ℤ) nums.reverse (batchFwd (P:ℤ) nums 1).1.reverse r)[nums.length - 1 - i]? := by
      rw [List.getElem?_reverse (by rw [hBlen]; omega), hBlen]
    have hrn : nums.reverse[nums.length - 1 - i]? = some a := by
      rw [List.getElem?_reverse (by omega),
        show nums.length - 1 - (nums.length - 1 - i) = i from by omega]
      exact hia
    have hFi := hF3 i a hia
    by_cases ha : a = 0
    · constructor
      · intro _
        have hFz : (batchFwd (P:ℤ) nums 1).1[i]? = some none := hFi.1 ha
        have hrt : (batchFwd (P:ℤ) nums 1).1.reverse[nums.length - 1 - i]? = some none := by
          rw [List.getElem?_reverse (by rw [hF1]; omega), hF1,
            show nums.length - 1 - (nums.length - 1 - i) = i from by omega]
          exact hFz
        have hB := hB2 (nums.length - 1 - i) a none hrn hrt
        rw [hrevout]
        exact hB.1 ha
      · intro hne
        exact absurd ha hne
    · constructor
      · intro h0
        exact absurd h0 ha
      · intro _
        obtain ⟨t, ht1, ht2⟩ := hFi.2 ha
        have hrt : (batchFwd (P:ℤ) nums 1).1.reverse[nums.length - 1 - i]?
            = some (some t) := by
          rw [List.getElem?_reverse (by rw [hF1]; omega), hF1,
            show nums.length - 1 - (nums.length - 1 - i) = i from by omega]
          exact ht1
        have hB := (hB2 (nums.length - 1 - i) a (some t) hrn hrt).2 ha
        obtain ⟨v, hv1, hv2, hv3, hv4⟩ := hB.2 t rfl
        have htake : nums.reverse.take (nums.length - 1 - i) = (nums.drop (i+1)).reverse := by
          rw [List.take_reverse]
          congr 2
          omega
        have hsplitlist : nums = nums.take i ++ a :: nums.drop (i+1) := by
          conv_lhs => rw [← List.take_append_drop i nums]
          congr 1
          rw [List.drop_eq_getElem_cons hi, hgeti]
        have hprodsplit : zfilterProd P nums
            = zfilterProd P (nums.take i)
              * ((a : ZMod P) * zfilterProd P (nums.drop (i+1))) := by
          conv_lhs => rw [hsplitlist]
          rw [zfilterProd_append, zfilterProd_cons_ne P a _ ha]
        have hv4' : (v : ZMod P) = (r : ZMod P) * zfilterProd P (nums.drop (i+1))
            * zfilterProd P (nums.take i) := by
          rw [hv4, htake, zfilterProd_reverse, ht2, Int.cast_one, one_mul]
        have hlast2 : (((batchFwd (P:ℤ) nums 1).2 : ℤ) : ZMod P) = zfilterProd P nums := by
          rw [hF2, Int.cast_one, one_mul]
        have hva : (v : ZMod P) * (a : ZMod P) = 1 := by
          rw [hv4']
          calc (r : ZMod P) * zfilterProd P (nums.drop (i+1)) * zfilterProd P (nums.take i)
              * (a : ZMod P)
              = (r : ZMod P) * (zfilterProd P (nums.take i)
                * ((a : ZMod P) * zfilterProd P (nums.drop (i+1)))) := by ring
            _ = (r : ZMod P) * zfilterProd P nums := by rw [← hprodsplit]
            _ = 1 := by rw [← hlast2]; exact hr4
        have hmem : a ∈ nums := List.getElem?_mem hia
        have hnotdvd : ¬ ((P:ℤ) ∣ a) :=
          int_not_dvd_of_range P a (hval a hmem).1 (hval a hmem).2 ha
        obtain ⟨ra, hra1, hra2, hra3, hra4⟩ := invert_correct P hp a hnotdvd
        have hane : (a : ZMod P) ≠ 0 :=
          intCast_zmod_ne_zero P a (hval a hmem).1 (hval a hmem).2 ha
        have hcastsame : (v : ZMod P) = (ra : ZMod P) :=
          mul_right_cancel₀ hane (hva.trans hra4.symm)
        have hveq : v = ra := intCast_range_inj P v ra hv2 hv3 hra2 hra3 hcastsame
        refine ⟨v, ?_, ?_⟩
        · rw [hrevout]
          exact hv1
        · rw [hveq]
          exact hra1

/-- Claim C6: for every prime-order field and every list of nonzero valid
field elements, `FpInvertBatch` succeeds and returns a list of the same
length whose `i`-th entry is exactly `f.inv` of the `i`-th input, while the
definition performs a single call to `invert` (on the accumulated
product). -/
theorem FpInvertBatch_inverts (P : ℕ) (hp : Nat.Prime P) (nums : List ℤ)
    (hval : ∀ a ∈ nums, 0 ≤ a ∧ a < (P:ℤ)) (hnz : ∀ a ∈ nums, a ≠ 0) :
    ∃ tmp, FpInvertBatch (P:ℤ) nums = some tmp ∧ tmp.length = nums.length ∧
      ∀ (i : ℕ) (a : ℤ), nums[i]? = some a →
        ∃ v, tmp[i]? = some (some v) ∧ fieldInv (P:ℤ) a = some v := by
  obtain ⟨tmp, h1, h2, h3⟩ := FpInvertBatch_spec P hp nums hval
  refine ⟨tmp, h1, h2, ?_⟩
  intro i a hia
  exact (h3 i a hia).2 (hnz a (List.getElem?_mem hia))

theorem FpInvertBatch_inverts_witness :
    Nat.Prime 7 ∧ (∀ a ∈ ([2, 3] : List ℤ), 0 ≤ a ∧ a < ((7:ℕ):ℤ)) ∧
    (∀ a ∈ ([2, 3] : List ℤ), a ≠ 0) ∧
    (∃ tmp, FpInvertBatch ((7:ℕ):ℤ) [2, 3] = some tmp ∧ tmp.length = ([2, 3] : List ℤ).length ∧
      ∀ (i : ℕ) (a : ℤ), ([2, 3] : List ℤ)[i]? = some a →
        ∃ v, tmp[i]? = some (some v) ∧ fieldInv ((7:ℕ):ℤ) a = some v) :=
  ⟨by norm_num, by decide, by decide,
    FpInvertBatch_inverts 7 (by norm_num) [2, 3] (by decide) (by decide)⟩

/-- Claim C10: for every list of valid field elements containing at least
one zero, `FpInvertBatch` does not throw: it succeeds, every zero position
is left undefined (`none`), and every nonzero position still receives the
correct inverse of its element. -/
theorem FpInvertBatch_with_zeros (P : ℕ) (hp : Nat.Prime P) (nums : List ℤ)
    (hval : ∀ a ∈ nums, 0 ≤ a ∧ a < (P:ℤ)) ( _hzero : ∃ a ∈ nums, a = 0) :
    ∃ tmp, FpInvertBatch (P:ℤ) nums = some tmp ∧ tmp.length = nums.length ∧
      ∀ (i : ℕ) (a : ℤ), nums[i]? = some a →
        (a = 0 → tmp[i]? = some none) ∧
        (a ≠ 0 → ∃ v, tmp[i]? = some (some v) ∧ fieldInv (P:ℤ) a = some v) :=
  FpInvertBatch_spec P hp nums hval

theorem FpInvertBatch_with_zeros_witness :
    Nat.Prime 7 ∧ (∀ a ∈ ([0, 3] : List ℤ), 0 ≤ a ∧ a < ((7:ℕ):ℤ)) ∧
    (∃ a ∈ ([0, 3] : List ℤ), a = 0) ∧
    (∃ tmp, FpInvertBatch ((7:ℕ):ℤ) [0, 3] = some tmp ∧ tmp.length = ([0, 3] : List ℤ).length ∧
      ∀ (i : ℕ) (a : ℤ), ([0, 3] : List ℤ)[i]? = some a →
        (a = 0 → tmp[i]? = some none) ∧
        (a ≠ 0 → ∃ v, tmp[i]? = some (some v) ∧ fieldInv ((7:ℕ):ℤ) a = some v)) :=
  ⟨by norm_num, by decide, by decide,
    FpInvertBatch_with_zeros 7 (by norm_num) [0, 3] (by decide) (by decide)⟩

/-! ### Claim C1: key-agreement symmetry -/

theorem nsmul_mod_sm2N {Pt : Type} [AddCommGroup Pt] (G0 : Pt) (hord : sm2N • G0 = 0)
    (k : ℕ) : (k % sm2N) • G0 = k • G0 := by
  conv_rhs => rw [← Nat.div_add_mod k sm2N]
  rw [add_nsmul, mul_comm, mul_smul, hord, smul_zero, zero_add]

theorem smul_collapse {Pt : Type} [AddCommGroup Pt] (G0 : Pt) (hord : sm2N • G0 = 0)
    (t d r x : ℕ) :
    t • ((x • (r • G0)) + d • G0) = ((t * (d + x * r)) % sm2N) • G0 := by
  rw [smul_smul, ← add_nsmul, smul_smul, nsmul_mod_sm2N G0 hord]
  ring_nf

theorem xbar_lt (x : ℕ) : wPow2 + (x &&& wPow2Sub1) < sm2N := by
  have hb : x &&& wPow2Sub1 ≤ wPow2Sub1 := Nat.and_le_right
  have hlt : wPow2 + wPow2Sub1 < sm2N := by decide
  omega

/-- Claim C1: key-agreement symmetry.  For every pair of honest keypairs
`(dA, dA·G)`, `(dB, dB·G)` and honest ephemeral keypairs `(rA, rA·G)`,
`(rB, rB·G)`, every key length and identifier strings, the initiator's
`calculateSharedKey` (with `isRecipient = false`) returns the same byte
string as the responder's (with `isRecipient = true` and the arguments
role-swapped).  The elliptic-curve layer is abstracted as any additively
written commutative group in which the base point is annihilated by the
group order `n`, with an arbitrary affine-coordinate assignment that fails
exactly at the point at infinity. -/
theorem calculateSharedKey_symm {Pt : Type} [AddCommGroup Pt] (G0 : Pt)
    (coords : Pt → Option (ℕ × ℕ))
    (hcoords : ∀ Q : Pt, coords Q = none ↔ Q = 0)
    (hord : sm2N • G0 = 0)
    (getZfn : List ℕ → List ℕ → List ℕ)
    (pubA pubB idA idB : List ℕ) (dA rA dB rB : ℕ) (klen : ℕ) :
    calculateSharedKey (· + ·) (fun k Q => k • Q) coords getZfn pubA pubB dA rA
      (rA • G0) (rB • G0) (dB • G0) klen false idA idB
    = calculateSharedKey (· + ·) (fun k Q => k • Q) coords getZfn pubB pubA dB rB
      (rB • G0) (rA • G0) (dA • G0) klen true idB idA := by
  have hN0 : 0 < sm2N := by decide
  simp only [calculateSharedKey]
  cases hca : coords (rA • G0) with
  | none =>
    cases hcb : coords (rB • G0) with
    | none => rfl
    | some xy2 => rfl
  | some xy1 =>
    cases hcb : coords (rB • G0) with
    | none => rfl
    | some xy2 =>
      simp only []
      rw [Nat.mod_eq_of_lt (xbar_lt xy2.1), Nat.mod_eq_of_lt (xbar_lt xy1.1)]
      by_cases htA : (dA + (wPow2 + (xy1.1 &&& wPow2Sub1)) * rA) % sm2N = 0
      · rw [if_pos htA]
        by_cases htB : (dB + (wPow2 + (xy2.1 &&& wPow2Sub1)) * rB) % sm2N = 0
        · rw [if_pos htB]
        · rw [if_neg htB]
          rw [smul_collapse G0 hord]
          have hz : ((dB + (wPow2 + (xy2.1 &&& wPow2Sub1)) * rB) % sm2N
              * (dA + (wPow2 + (xy1.1 &&& wPow2Sub1)) * rA)) % sm2N = 0 := by
            have hdvd : sm2N ∣ (dA + (wPow2 + (xy1.1 &&& wPow2Sub1)) * rA) :=
              Nat.dvd_iff_mod_eq_zero.mpr htA
            exact Nat.dvd_iff_mod_eq_zero.mp (hdvd.mul_left _)
          rw [hz, zero_nsmul, (hcoords 0).mpr rfl]
      · rw [if_neg htA]
        by_cases htB : (dB + (wPow2 + (xy2.1 &&& wPow2Sub1)) * rB) % sm2N = 0
        · rw [if_pos htB]
          rw [smul_collapse G0 hord]
          have hz : ((dA + (wPow2 + (xy1.1 &&& wPow2Sub1)) * rA) % sm2N
              * (dB + (wPow2 + (xy2.1 &&& wPow2Sub1)) * rB)) % sm2N = 0 := by
            have hdvd : sm2N ∣ (dB + (wPow2 + (xy2.1 &&& wPow2Sub1)) * rB) :=
              Nat.dvd_iff_mod_eq_zero.mpr htB
            exact Nat.dvd_iff_mod_eq_zero.mp (hdvd.mul_left _)
          rw [hz, zero_nsmul, (hcoords 0).mpr rfl]
        · rw [if_neg htB]
          rw [smul_collapse G0 hord, smul_collapse G0 hord]
          rw [show ((dA + (wPow2 + (xy1.1 &&& wPow2Sub1)) * rA) % sm2N
              * (dB + (wPow2 + (xy2.1 &&& wPow2Sub1)) * rB)) % sm2N
              = ((dB + (wPow2 + (xy2.1 &&& wPow2Sub1)) * rB) % sm2N
              * (dA + (wPow2 + (xy1.1 &&& wPow2Sub1)) * rA)) % sm2N from by
            rw [Nat.mod_mul_mod, Nat.mod_mul_mod, mul_comm]]
          rfl

theorem calculateSharedKey_symm_witness :
    (∀ Q : ZMod sm2N, (if Q = 0 then none else some (Q.val, Q.val)) = none ↔ Q = 0) ∧
    sm2N • (1 : ZMod sm2N) = 0 ∧
    calculateSharedKey (· + ·) (fun (k : ℕ) (Q : ZMod sm2N) => k • Q)
      (fun Q : ZMod sm2N => if Q = 0 then none else some (Q.val, Q.val))
      (fun x y => x ++ y) [1] [2] 2 3 (3 • (1 : ZMod sm2N)) (11 • (1 : ZMod sm2N))
      (5 • (1 : ZMod sm2N)) 16 false [7] [8]
      = calculateSharedKey (· + ·) (fun (k : ℕ) (Q : ZMod sm2N) => k • Q)
      (fun Q : ZMod sm2N => if Q = 0 then none else some (Q.val, Q.val))
      (fun x y => x ++ y) [2] [1] 5 11 (11 • (1 : ZMod sm2N)) (3 • (1 : ZMod sm2N))
      (2 • (1 : ZMod sm2N)) 16 true [8] [7] := by
  have hc : ∀ Q : ZMod sm2N, (if Q = 0 then none else some (Q.val, Q.val)) = none ↔ Q = 0 := by
    intro Q
    by_cases h : Q = 0
    · simp [h]
    · simp [h]
  have ho : sm2N • (1 : ZMod sm2N) = 0 := by
    rw [nsmul_eq_mul, mul_one, ZMod.natCast_self]
  exact ⟨hc, ho, calculateSharedKey_symm (1 : ZMod sm2N)
    (fun Q : ZMod sm2N => if Q = 0 then none else some (Q.val, Q.val)) hc ho
    (fun x y => x ++ y) [1] [2] [7] [8] 2 3 5 11 16⟩

end SmCrypto

namespace SmCrypto

/-! ### Claim C7: private-key derivation -/

/-- Claim C7: for every byte string of accepted length, `mapHashToField` over
the SM2 group order returns exactly the 32-byte big-endian encoding of
`d = (raw mod (n-1)) + 1`, and `d` always lies in `[1, n-1]`. -/
theorem mapHashToField_sm2N (key : List ℕ) (h1 : 48 ≤ key.length) (h2 : key.length ≤ 1024) :
    mapHashToField key sm2N
      = some (numberToBytesBE (bytesToNumberBE key % (sm2N - 1) + 1) 32) ∧
    1 ≤ bytesToNumberBE key % (sm2N - 1) + 1 ∧
    bytesToNumberBE key % (sm2N - 1) + 1 ≤ sm2N - 1 := by
  have hf : getFieldBytesLength sm2N = 32 := by decide
  have hm : getMinHashLength sm2N = 48 := by decide
  refine ⟨?_, by omega, ?_⟩
  · simp only [mapHashToField, hf, hm]
    rw [if_neg (by omega)]
  · have hlt : bytesToNumberBE key % (sm2N - 1) < sm2N - 1 :=
      Nat.mod_lt _ (by decide)
    omega

theorem mapHashToField_sm2N_witness :
    48 ≤ (List.replicate 48 0 : List ℕ).length ∧
    (List.replicate 48 0 : List ℕ).length ≤ 1024 ∧
    mapHashToField (List.replicate 48 0) sm2N
      = some (numberToBytesBE (bytesToNumberBE (List.replicate 48 0) % (sm2N - 1) + 1) 32) :=
  ⟨by decide, by decide,
    (mapHashToField_sm2N (List.replicate 48 0) (by decide) (by decide)).1⟩

end SmCrypto
